import Mathlib

/-!
Shallow embedding of the cuckoo-hashing-benchmark hash tables.

The Rust sources embedded here are:
* `src/u64_fold_hash_fast.rs` (the 64-bit folding hash),
* `src/aligned_cuckoo_table.rs` (the aligned cuckoo table: `with_capacity`,
  `insert`, `get`, `erase_index`, `insert_and_erase`, `scramble_tag`),
* `src/aligned_double_hashing_table.rs` (`ProbeSeq`, `probe_seq`, `move_next`,
  `with_capacity`, `erase_index`),
* `src/scalar_unaligned_table.rs` (`with_capacity`, `insert`, `get`).

Machine integers are modelled as `Nat` with explicit reduction modulo `2 ^ 64`
where Rust wraps.  Rust slices become `List`s read with `List.getD`;
`MaybeUninit` slots become `Option`-valued payloads where `none` stands for
an uninitialised value.  Group loads, SwissTable tags and bitmasks follow the
`Tag`/`Group`/`BitMask` semantics of the vendored hashbrown control module
(`src/control/`, whose generic interface is described in the specification:
a tag is one byte, EMPTY = 0xFF, DELETED = 0x80, FULL = 7-bit fingerprint
`hash >> 57`; a group is `W` consecutive tags; bitmask `trailing_zeros` /
`leading_zeros` count from the low/high lane and return `W` on the zero mask).
The group width `W` is a build-time constant in {8, 16, 32}; it is kept as a
parameter here.  The table seed comes from an external RNG (`fastrand`, an
out-of-scope collaborator); it is a parameter of `withCapacity` here.
-/

namespace CuckooBench

/-- Modulus of Rust `u64`/`usize` arithmetic. -/
def U64 : Nat := 2 ^ 64

/-- Rust `x.rotate_left(32)` on a `u64` value `x < 2 ^ 64`. -/
def rotl32 (x : Nat) : Nat := x % 2 ^ 32 * 2 ^ 32 + x / 2 ^ 32 % 2 ^ 32

/-- The folding constant `FOLD` of `src/u64_fold_hash_fast.rs`. -/
def FOLD : Nat := 0x2d358dccaa6c78a5

/-- Embedding of `fold_hash_fast` from `src/u64_fold_hash_fast.rs`:
`key ^= seed; r = (key as u128) * FOLD; (r >> 64) as u64 ^ r as u64`. -/
def foldHashFast (key seed : Nat) : Nat :=
  let k := key ^^^ seed
  let r := k * FOLD
  (r / U64) ^^^ (r % U64)

namespace Tag

/-- The EMPTY control byte (0xFF). -/
def EMPTY : Nat := 0xFF

/-- The DELETED control byte (0x80). -/
def DELETED : Nat := 0x80

/-- A FULL control byte carrying the fingerprint of `hash`: the top 7 bits
of the 64-bit hash (high bit automatically clear). -/
def full (hash : Nat) : Nat := hash % U64 / 2 ^ 57

/-- A tag is full iff its high bit is clear. -/
def isFull (t : Nat) : Bool := t < 0x80

end Tag

/-- The multiplier `MUL` of `scramble_tag` in `src/aligned_cuckoo_table.rs`. -/
def MUL : Nat := 0x2d358dccaa6c78a5

/-- Embedding of `scramble_tag` from `src/aligned_cuckoo_table.rs`:
`(tag.0 as u64).wrapping_mul(MUL).rotate_left(32)`. -/
def scramble_tag (tag : Nat) : Nat := rotl32 (tag * MUL % U64)

/-- Iteration core of Rust `usize::next_power_of_two`: doubling `power`
until it reaches `n`; `fuel` bounds the recursion and is chosen large
enough that it never runs out. -/
def nextPowAux (n : Nat) : Nat → Nat → Nat
  | 0, power => power
  | fuel + 1, power => if n ≤ power then power else nextPowAux n fuel (power * 2)

/-- Rust `n.next_power_of_two()`: the smallest power of two that is `≥ n`
(and `1` for `n = 0`). -/
def rustNextPowerOfTwo (n : Nat) : Nat := nextPowAux n n 1

/-- The bucket-count computation shared by every `with_capacity` in the
repository: `((capacity * 8) / 7).next_power_of_two()`, computed in
`usize`: the product `capacity * 8` wraps at `2 ^ 64` (the overflow is left
unhandled in the source, marked `TODO`); the quotient is below `2 ^ 63`, so
`next_power_of_two` itself never wraps. -/
def numBuckets (capacity : Nat) : Nat := rustNextPowerOfTwo (capacity * 8 % U64 / 7)

/-- Embedding of `ProbeSeq` from `src/aligned_double_hashing_table.rs`. -/
structure ProbeSeq where
  pos : Nat
  stride : Nat
deriving DecidableEq, Repr

/-- Embedding of `HashTable::probe_seq`: starting position
`(hash64 as usize) & aligned_bucket_mask` and stride
`(hash64.rotate_left(32) as usize & aligned_bucket_mask) | Group::WIDTH`. -/
def probeSeq (hash64 alignedBucketMask W : Nat) : ProbeSeq :=
  { pos := hash64 &&& alignedBucketMask
    stride := (rotl32 hash64 &&& alignedBucketMask) ||| W }

/-- Embedding of `ProbeSeq::move_next`: `pos += stride; pos &= bucket_mask`
(the stride is left unchanged). -/
def moveNext (p : ProbeSeq) (bucketMask : Nat) : ProbeSeq :=
  { pos := (p.pos + p.stride) &&& bucketMask, stride := p.stride }

/-- The probe state after `i` calls of `move_next` following `probe_seq`. -/
def probeStep (hash64 alignedBucketMask bucketMask W : Nat) : Nat → ProbeSeq
  | 0 => probeSeq hash64 alignedBucketMask W
  | i + 1 => moveNext (probeStep hash64 alignedBucketMask bucketMask W i) bucketMask

/-- Tag lane `j` of the group load: a group load at `pos` reads `W`
consecutive control bytes starting at `pos` (reads past the embedded list
are junk and modelled as EMPTY; theorems restrict positions to be in
bounds). -/
def groupLoad (ctrl : List Nat) (pos W : Nat) : List Nat :=
  (List.range W).map fun j => ctrl.getD (pos + j) Tag.EMPTY

/-- Bitmask lane list of `Group::match_empty`: lane `j` is set iff tag `j`
equals EMPTY. -/
def matchEmptyMask (g : List Nat) : List Bool := g.map fun t => t == Tag.EMPTY

/-- BitMask `trailing_zeros`: the number of low unset lanes (the width of
the mask for the zero mask). -/
def maskTrailingZeros (m : List Bool) : Nat := (m.takeWhile fun b => !b).length

/-- BitMask `leading_zeros`: the number of high unset lanes (the width of
the mask for the zero mask). -/
def maskLeadingZeros (m : List Bool) : Nat := maskTrailingZeros m.reverse

namespace Aligned

/-- State of `aligned_cuckoo_table::HashTable` (and structurally of
`aligned_double_hashing_table::HashTable`).  `ctrl` is the control-byte
array (`num_buckets` tags), `slots` the bucket array; a slot is a
`(key, value)` pair whose value is `none` while uninitialised.  The
benchmark statistics fields (`total_probe_length` …) are compiled out in
the benchmarked configuration (`TRACK_PROBE_LENGTH = false`) and the `rng`
field is unused by the embedded operations, so they are omitted. -/
structure Table (V : Type) where
  W : Nat
  numBuckets : Nat
  ctrl : List Nat
  slots : List (Nat × Option V)
  items : Nat
  seed : Nat
deriving DecidableEq, Repr

variable {V : Type}

/-- Reading control byte `i` (out-of-range reads are junk, fixed as EMPTY). -/
def ctrlAt (t : Table V) (i : Nat) : Nat := t.ctrl.getD i Tag.EMPTY

/-- Reading bucket `i` (out-of-range reads are junk). -/
def slotAt (t : Table V) (i : Nat) : Nat × Option V := t.slots.getD i (0, none)

/-- The key stored in bucket `i`. -/
def keyAt (t : Table V) (i : Nat) : Nat := (slotAt t i).1

/-- The `for bit in group.match_tag(tag)` loops of `insert`/`get`: scan the
tag-matching lanes of the group loaded at `pos` in ascending order and
return the first masked index whose stored key equals `k`. -/
def findKeyHit (t : Table V) (pos tag k : Nat) : Option Nat :=
  (((List.range t.W).filter fun bit => ctrlAt t (pos + bit) == tag).find?
      fun bit => keyAt t ((pos + bit) &&& (t.numBuckets - 1)) == k).map
    fun bit => (pos + bit) &&& (t.numBuckets - 1)

/-- The `group.match_empty().lowest_set_bit()` idiom: offset of the first
EMPTY tag of the group loaded at `pos`. -/
def firstEmptyOffset (t : Table V) (pos : Nat) : Option Nat :=
  (List.range t.W).find? fun j => ctrlAt t (pos + j) == Tag.EMPTY

/-- The panic message of BFS queue exhaustion. -/
def rehashMsg : String := "Failed to insert into cuckoo table; need to rehash"

/-- BFS queue capacity: `2 * (1 + N + N * N + N * N * N)` with `N = W`. -/
def BFS_MAX (W : Nat) : Nat := 2 * (1 + W + W * W + W * W * W)

/-- The `for i in 0..N` body of the BFS loop: for each occupant offset `i`
of the group at `pos`, compute its alternative group position from its tag
(`pos ^ (scramble_tag(ctrl[pos + i]) & aligned_bucket_mask)`); if that
group has an EMPTY slot, stop with the path index `writePos + i` and the
empty bucket index, else append the position to the queue. -/
def expandChildren (t : Table V) (amask pos writePos : Nat) :
    List Nat → List Nat → Sum (Nat × Nat) (List Nat)
  | [], queue => Sum.inr queue
  | i :: rest, queue =>
    let other := pos ^^^ (scramble_tag (ctrlAt t (pos + i)) &&& amask)
    match firstEmptyOffset t other with
    | some e => Sum.inl (writePos + i, other + e)
    | none => expandChildren t amask pos writePos rest (queue ++ [other])

/-- The `'bfs` loop of `aligned_cuckoo_table::HashTable::insert`.  Each
round reads the node at `readPos`, panics (error) when its children would
be written at or past `BFS_MAX`, and otherwise expands it.  `fuel` bounds
the recursion; `insert` passes more fuel than the panic guard allows
rounds, so the fuel case is unreachable (and conservatively returns the
same panic). -/
def bfsGo (t : Table V) (amask : Nat) :
    Nat → Nat → List Nat → Except String (Nat × Nat × List Nat)
  | 0, _, _ => Except.error rehashMsg
  | fuel + 1, readPos, queue =>
    let writePos := readPos * t.W + 2
    if BFS_MAX t.W ≤ writePos then Except.error rehashMsg
    else
      match expandChildren t amask (queue.getD readPos 0) writePos (List.range t.W) queue with
      | Sum.inl (pathIndex, bucketIndex) => Except.ok (pathIndex, bucketIndex, queue)
      | Sum.inr queue' => bfsGo t amask fuel (readPos + 1) queue'

/-- The backtracking `while path_index >= 2` loop of `insert`: move the
parent occupant (bucket pair and control byte) into the current bucket and
step to the parent.  Returns the final root bucket index together with the
updated control and slot arrays.  `fuel` exceeds `pathIndex`, which shrinks
every round, so the fuel case is unreachable. -/
def applyPathGo (W : Nat) (queue : List Nat) :
    Nat → Nat → Nat → List Nat → List (Nat × Option V) →
    Nat × List Nat × List (Nat × Option V)
  | 0, _, bucketIndex, ctrl, slots => (bucketIndex, ctrl, slots)
  | fuel + 1, pathIndex, bucketIndex, ctrl, slots =>
    if pathIndex < 2 then (bucketIndex, ctrl, slots)
    else
      let parentPath := (pathIndex - 2) / W
      let parentOff := (pathIndex - 2) % W
      let parentBucket := queue.getD parentPath 0 + parentOff
      let kv := slots.getD parentBucket (0, none)
      let tg := ctrl.getD parentBucket Tag.EMPTY
      applyPathGo W queue fuel parentPath parentBucket
        (ctrl.set bucketIndex tg) (slots.set bucketIndex kv)

/-- Embedding of `aligned_cuckoo_table::HashTable::insert`.  Returns
`(table, inserted_flag, bucket_index)`; the `insertion_probe_length`
statistic of the Rust return value is dropped.  A panic is an `error`. -/
def insert (t : Table V) (k : Nat) (v : V) : Except String (Table V × Bool × Nat) :=
  let hash0 := foldHashFast k t.seed
  let tagHash := Tag.full hash0
  let hash1 := hash0 ^^^ scramble_tag tagHash
  let amask := t.numBuckets - t.W
  let pos0 := hash0 &&& amask
  let pos1 := hash1 &&& amask
  match findKeyHit t pos0 tagHash k with
  | some idx =>
    Except.ok ({ t with slots := t.slots.set idx (keyAt t idx, some v) }, false, idx)
  | none =>
  match findKeyHit t pos1 tagHash k with
  | some idx =>
    Except.ok ({ t with slots := t.slots.set idx (keyAt t idx, some v) }, false, idx)
  | none =>
  let items' := t.items + 1
  match firstEmptyOffset t pos0 with
  | some e =>
    let i := (pos0 + e) &&& (t.numBuckets - 1)
    Except.ok
      ({ t with
          ctrl := t.ctrl.set i tagHash
          slots := t.slots.set i (k, some v)
          items := items' }, true, i)
  | none =>
  match firstEmptyOffset t pos1 with
  | some e =>
    let i := (pos1 + e) &&& (t.numBuckets - 1)
    Except.ok
      ({ t with
          ctrl := t.ctrl.set i tagHash
          slots := t.slots.set i (k, some v)
          items := items' }, true, i)
  | none =>
  match bfsGo t amask (BFS_MAX t.W + 2) 0 [pos0, pos1] with
  | Except.error msg => Except.error msg
  | Except.ok (pathIndex, bucketIndex, queue) =>
    let r := applyPathGo t.W queue (pathIndex + 1) pathIndex bucketIndex t.ctrl t.slots
    Except.ok
      ({ t with
          ctrl := r.2.1.set r.1 tagHash
          slots := r.2.2.set r.1 (k, some v)
          items := items' }, true, r.1)

/-- Embedding of `aligned_cuckoo_table::HashTable::get`.  The outer option
is Rust's `Option<&V>`; the inner option is the initialisedness of the
pointee.  The loop flag `is_second_group` makes the loop run at most twice
(`ALLOW_EARLY_RETURN` is `false`); `fuel` bounds the recursion. -/
def getGo (t : Table V) (k tag : Nat) : Nat → Bool → Nat → Option (Option V)
  | 0, _, _ => none
  | fuel + 1, isSecond, hash64 =>
    let pos := hash64 &&& (t.numBuckets - t.W)
    match findKeyHit t pos tag k with
    | some idx => some (slotAt t idx).2
    | none =>
      if isSecond then none
      else getGo t k tag fuel true (hash64 ^^^ scramble_tag tag)

/-- `get(&key)` of the aligned cuckoo table. -/
def get (t : Table V) (k : Nat) : Option (Option V) :=
  let h := foldHashFast k t.seed
  getGo t k (Tag.full h) 2 false h

/-- Embedding of `aligned_cuckoo_table::HashTable::erase_index` (the same
code appears in `aligned_double_hashing_table.rs`): load the group just
before `i` and the group at `i`, and write DELETED when the non-EMPTY runs
around `i` reach the group width, EMPTY otherwise; decrement `items`. -/
def eraseIndex (t : Table V) (i : Nat) : Table V :=
  let ib := (i + U64 - t.W) % U64 &&& (t.numBuckets - 1)
  let emptyBefore := matchEmptyMask (groupLoad t.ctrl ib t.W)
  let emptyAfter := matchEmptyMask (groupLoad t.ctrl i t.W)
  let tg :=
    if t.W ≤ maskLeadingZeros emptyBefore + maskTrailingZeros emptyAfter
    then Tag.DELETED else Tag.EMPTY
  { t with ctrl := t.ctrl.set i tg, items := t.items - 1 }

/-- Embedding of `aligned_cuckoo_table::HashTable::insert_and_erase`:
insert, and when a fresh slot was claimed reset its control byte to EMPTY
directly via `set_ctrl` (the item count is not touched by the erase half). -/
def insertAndErase (t : Table V) (k : Nat) (v : V) : Except String (Table V) :=
  match insert t k v with
  | Except.error e => Except.error e
  | Except.ok (t', inserted, idx) =>
    Except.ok (if inserted then { t' with ctrl := t'.ctrl.set idx Tag.EMPTY } else t')

/-- Embedding of `with_capacity`: `num_buckets = ((capacity * 8) / 7)
.next_power_of_two()`, all control bytes EMPTY, all slots uninitialised.
The seed is drawn from the external RNG in Rust and is a parameter here. -/
def withCapacity (V : Type) (W capacity seed : Nat) : Table V :=
  let n := numBuckets capacity
  { W := W
    numBuckets := n
    ctrl := List.replicate n Tag.EMPTY
    slots := List.replicate n (0, none)
    items := 0
    seed := seed }

/-- Spec-side node positions of the BFS search tree: node 0 and 1 are the
two home groups; the parent of node `j ≥ 2` is node `(j - 2) / W` and its
position is obtained from the parent position `p` and occupant offset
`(j - 2) % W` as `p ^ (scramble_tag(ctrl[p + offset]) & amask)`.  `fuel`
bounds the recursion (`fuel ≥ j` suffices). -/
def nodePosGo (t : Table V) (amask pos0 pos1 : Nat) : Nat → Nat → Nat
  | 0, j => if j = 0 then pos0 else pos1
  | fuel + 1, j =>
    if j = 0 then pos0
    else if j = 1 then pos1
    else
      let p := nodePosGo t amask pos0 pos1 fuel ((j - 2) / t.W)
      p ^^^ (scramble_tag (ctrlAt t (p + (j - 2) % t.W)) &&& amask)

/-- Position of BFS tree node `j` (see `nodePosGo`). -/
def nodePos (t : Table V) (amask pos0 pos1 j : Nat) : Nat :=
  nodePosGo t amask pos0 pos1 j j

/-- Number of non-EMPTY tags in the run starting at index `i` (capped at
the group width). -/
def runNonEmptyFwd (t : Table V) (i : Nat) : Nat :=
  ((List.range t.W).takeWhile fun j => !(ctrlAt t (i + j) == Tag.EMPTY)).length

/-- Number of non-EMPTY tags in the run ending at index `i - 1` (capped at
the group width). -/
def runNonEmptyBwd (t : Table V) (i : Nat) : Nat :=
  ((List.range t.W).takeWhile fun j => !(ctrlAt t (i - 1 - j) == Tag.EMPTY)).length

/-- The erase rule exactly as claim C4 words it (spec side, for
comparison with `eraseIndex`): write EMPTY when the trailing run of EMPTY
tags in the group before `i` plus the leading run of EMPTY tags in the
group starting at `i` totals at least `W`, DELETED otherwise. -/
def eraseTagClaimed (t : Table V) (i : Nat) : Nat :=
  let trailingEmptyBefore :=
    ((List.range t.W).takeWhile fun j => ctrlAt t (i - 1 - j) == Tag.EMPTY).length
  let leadingEmptyAfter :=
    ((List.range t.W).takeWhile fun j => ctrlAt t (i + j) == Tag.EMPTY).length
  if t.W ≤ trailingEmptyBefore + leadingEmptyAfter then Tag.EMPTY else Tag.DELETED

/-- The W-aligned group base containing index `i`. -/
def blockOf (W i : Nat) : Nat := i / W * W

/-- The control byte and slot of every bucket, as one list of cells. -/
def cells (t : Table V) : List (Nat × Nat × Option V) := t.ctrl.zip t.slots

/-- A cell is a live binding of key `k` iff its tag is FULL and its slot
key is `k`. -/
def liveCell (k : Nat) (c : Nat × Nat × Option V) : Bool :=
  Tag.isFull c.1 && c.2.1 == k

/-- Number of FULL cells whose slot key is `k`. -/
def keyCount (t : Table V) (k : Nat) : Nat := (cells t).countP (liveCell k)

/-- Key `k` is live in the table. -/
def present (t : Table V) (k : Nat) : Prop := 0 < keyCount t k

/-- Some FULL cell binds key `k` to value `v`. -/
def livePairMem (t : Table V) (k : Nat) (v : V) : Prop :=
  ∃ c ∈ cells t, Tag.isFull c.1 ∧ c.2.1 = k ∧ c.2.2 = some v

/-- The first candidate group position of key `k`:
`hash & aligned_bucket_mask`. -/
def homePos0 (t : Table V) (k : Nat) : Nat :=
  foldHashFast k t.seed &&& (t.numBuckets - t.W)

/-- The second candidate group position of key `k`:
`(hash ^ scramble_tag(fingerprint)) & aligned_bucket_mask`. -/
def homePos1 (t : Table V) (k : Nat) : Nat :=
  (foldHashFast k t.seed ^^^ scramble_tag (Tag.full (foldHashFast k t.seed)))
    &&& (t.numBuckets - t.W)

/-- Well-formedness of an aligned cuckoo table state: power-of-two bucket
count and group width with `W ≤ num_buckets`, array lengths matching,
every FULL cell carries the fingerprint of its key and sits in one of the
key's two home groups, and no key occupies two FULL cells. -/
structure WF (t : Table V) : Prop where
  pow2N : ∃ n, t.numBuckets = 2 ^ n
  pow2W : ∃ w, t.W = 2 ^ w
  WleN : t.W ≤ t.numBuckets
  ctrlLen : t.ctrl.length = t.numBuckets
  slotsLen : t.slots.length = t.numBuckets
  placed : ∀ i < t.numBuckets, Tag.isFull (ctrlAt t i) →
    ctrlAt t i = Tag.full (foldHashFast (keyAt t i) t.seed) ∧
    (blockOf t.W i = homePos0 t (keyAt t i) ∨ blockOf t.W i = homePos1 t (keyAt t i))
  unique : ∀ k, keyCount t k ≤ 1

/-- No DELETED control byte anywhere (the safety precondition of
`insert_and_erase`). -/
def noTombstones (t : Table V) : Prop :=
  ∀ i < t.numBuckets, ctrlAt t i ≠ Tag.DELETED

end Aligned

namespace ScalarUnaligned

/-- State of `scalar_unaligned_table::U64HashSet`: a flat array of
`(key, value)` slots (key 0 marks an empty slot, value `none` while
uninitialised), plus the dedicated slot for key 0. -/
structure Table (V : Type) where
  table : List (Nat × Option V)
  bucketMask : Nat
  len : Nat
  zeroValue : Option V
  seed : Nat
deriving DecidableEq, Repr

variable {V : Type}

/-- Embedding of `scalar_unaligned_table::U64HashSet::with_capacity`:
`num_buckets = ((capacity * 8) / 7).next_power_of_two() * 2`, slots zeroed
(keys 0, values uninitialised).  The seed is a parameter (external RNG). -/
def withCapacity (V : Type) (capacity seed : Nat) : Table V :=
  let n := CuckooBench.numBuckets capacity * 2
  { table := List.replicate n (0, none)
    bucketMask := n - 1
    len := 0
    zeroValue := none
    seed := seed }

/-- The linear-probing loop of `scalar_unaligned_table::U64HashSet::insert`.
On an empty slot the source stores the key and bumps `len` but never
writes `element.1`, and on a key match it returns without storing the new
value either, so the loop does not mention the value at all.  `fuel`
bounds the recursion (the concrete theorems never exhaust it). -/
def insertGo (t : Table V) (key : Nat) : Nat → Nat → Option (Table V × Bool × Nat)
  | 0, _ => none
  | fuel + 1, bucketI =>
    let pos := bucketI &&& t.bucketMask
    let e := t.table.getD pos (0, none)
    if e.1 == 0 then
      some ({ t with table := t.table.set pos (key, e.2), len := t.len + 1 }, true, bucketI)
    else if e.1 == key then some (t, false, bucketI)
    else insertGo t key fuel (bucketI + 1)

/-- Embedding of `scalar_unaligned_table::U64HashSet::insert`. -/
def insert (t : Table V) (key : Nat) (v : V) : Option (Table V × Bool × Nat) :=
  if key == 0 then
    let inserted := t.zeroValue.isNone
    some ({ t with
        len := t.len + (if inserted then 1 else 0)
        zeroValue := some v }, inserted, U64 - 1)
  else insertGo t key (t.table.length + 1) (foldHashFast key t.seed)

/-- The probing loop of `scalar_unaligned_table::U64HashSet::get`.  The
outer option is Rust's `Option<&V>`; the inner option is the
initialisedness of the pointee. -/
def getGo (t : Table V) (key : Nat) : Nat → Nat → Option (Option V)
  | 0, _ => none
  | fuel + 1, bucketI =>
    let pos := bucketI &&& t.bucketMask
    let e := t.table.getD pos (0, none)
    if e.1 == key then some e.2
    else if e.1 == 0 then none
    else getGo t key fuel (bucketI + 1)

/-- Embedding of `scalar_unaligned_table::U64HashSet::get`: probe from the
hash position until the key or an empty (zero-keyed) slot is found; the
source has no special case for key 0 (it would return the first zero-keyed
slot's uninitialised value). -/
def get (t : Table V) (key : Nat) : Option (Option V) :=
  getGo t key (t.table.length + 1) (foldHashFast key t.seed)

end ScalarUnaligned

theorem nextPowAux_pow2 (n : Nat) :
    ∀ fuel power, (∃ k, power = 2 ^ k) → ∃ k, nextPowAux n fuel power = 2 ^ k := by
  intro fuel
  induction fuel with
  | zero => intro power h; exact h
  | succ fuel ih =>
    intro power h
    rw [nextPowAux]
    split
    · exact h
    · refine ih (power * 2) ?_
      obtain ⟨k, hk⟩ := h
      exact ⟨k + 1, by rw [hk]; ring⟩

theorem le_nextPowAux (n : Nat) :
    ∀ fuel power, n ≤ 2 ^ fuel * power → n ≤ nextPowAux n fuel power := by
  intro fuel
  induction fuel with
  | zero => intro power h; simpa using h
  | succ fuel ih =>
    intro power h
    rw [nextPowAux]
    split
    · assumption
    · refine ih (power * 2) ?_
      calc n ≤ 2 ^ (fuel + 1) * power := h
        _ = 2 ^ fuel * (power * 2) := by ring

theorem rustNextPowerOfTwo_pow2 (n : Nat) : ∃ k, rustNextPowerOfTwo n = 2 ^ k :=
  nextPowAux_pow2 n n 1 ⟨0, rfl⟩

theorem le_rustNextPowerOfTwo (n : Nat) : n ≤ rustNextPowerOfTwo n :=
  le_nextPowAux n n 1 (by simpa using (Nat.lt_two_pow n).le)

/-- Claim C1 (code divergence, evaluated at the failing input): in the
`scalar_unaligned_table` variant, the schedule `with_capacity(8);
insert(1, 42); get(&1)` makes `insert` report a fresh insertion and `get`
return `Some` of a reference to a value slot that was never written
(`some none` in the model) instead of `Some(&42)`: the reference map binds
key 1 to 42, the table never stores 42. -/
theorem c1_scalar_unaligned_never_stores_value :
    (ScalarUnaligned.insert (ScalarUnaligned.withCapacity Nat 8 0) 1 42).map
        (fun r => (r.2.1, ScalarUnaligned.get r.1 1)) =
      some (true, some none) := by decide

/-- Claim C5 (code divergence, evaluated at the failing inputs):
`with_capacity(0)` and `with_capacity(1)` compute `num_buckets = 1`, which
is smaller than every group width (8, 16 and 32), so
`num_buckets - Group::WIDTH` underflows instead of producing a valid
table; with the smallest width 8 the wrapped `usize` value is
`2 ^ 64 - 7`. -/
theorem c5_with_capacity_zero_one_underflows :
    numBuckets 0 = 1 ∧ numBuckets 1 = 1 ∧ ¬ 8 ≤ numBuckets 0 ∧ ¬ 16 ≤ numBuckets 0 ∧
      ¬ 32 ≤ numBuckets 0 ∧ (numBuckets 0 + U64 - 8) % U64 = 2 ^ 64 - 7 := by
  refine ⟨rfl, rfl, by decide, by decide, by decide, by decide⟩

/-- Claim C6 (counterexample): for capacity 1 the code computes
`num_buckets = next_power_of_two(8 / 7) = 1`, which is strictly below
the exact rational ceiling `ceil(1 * 8 / 7) = 2` the claim requires. -/
theorem c6_counterexample_capacity_one :
    numBuckets 1 = 1 ∧ numBuckets 1 < (1 * 8 + 6) / 7 := by decide

/-- Claim C6 (amended): for every capacity `n` whose byte product does not
overflow (`n * 8 < 2 ^ 64`; the source computes `capacity * 8` in `usize`
with the overflow left unhandled, so for `n ≥ 2 ^ 61` the product wraps and
the bound fails), the number of buckets is a power of two at least the
floor `n * 8 / 7` (the code divides with truncation before rounding up, so
only the floor bound holds, see the counterexample at capacity 1). -/
theorem c6_numBuckets_pow2_ge_floor (n : Nat) (h : n * 8 < U64) :
    (∃ k, numBuckets n = 2 ^ k) ∧ n * 8 / 7 ≤ numBuckets n := by
  unfold numBuckets
  rw [Nat.mod_eq_of_lt h]
  exact ⟨rustNextPowerOfTwo_pow2 _, le_rustNextPowerOfTwo _⟩

/-- Witness for C6's amended theorem: capacity 3 does not overflow and gets
`floor(24 / 7) = 3 ≤ 4 = num_buckets`. -/
theorem c6_witness :
    3 * 8 < U64 ∧ (∃ k, numBuckets 3 = 2 ^ k) ∧ 3 * 8 / 7 ≤ numBuckets 3 :=
  ⟨by decide, c6_numBuckets_pow2_ge_floor 3 (by decide)⟩

theorem and_two_pow_sub_two_pow (x n w : Nat) (hw : w ≤ n) :
    x &&& (2 ^ n - 2 ^ w) = x / 2 ^ w % 2 ^ (n - w) * 2 ^ w := by
  have hmask : (2 ^ n - 2 ^ w : Nat) = (2 ^ (n - w) - 1) <<< w := by
    rw [Nat.shiftLeft_eq, Nat.sub_mul, one_mul, ← pow_add, Nat.sub_add_cancel hw]
  apply Nat.eq_of_testBit_eq
  intro i
  rw [Nat.testBit_and, hmask, Nat.testBit_shiftLeft, Nat.testBit_two_pow_sub_one,
    ← Nat.shiftLeft_eq, Nat.testBit_shiftLeft, Nat.testBit_mod_two_pow,
    ← Nat.shiftRight_eq_div_pow, Nat.testBit_shiftRight]
  rcases Nat.lt_or_ge i w with hiw | hiw
  · simp [ge_iff_le, Nat.not_le.2 hiw]
  · have hwi : w + (i - w) = i := by omega
    by_cases hin : i - w < n - w <;> simp [ge_iff_le, hiw, hwi, hin, Bool.and_comm]

theorem and_mask_le_self (x m : Nat) : x &&& m ≤ m := Nat.and_le_right

theorem lor_mul_two_pow (a b w : Nat) : a * 2 ^ w ||| b * 2 ^ w = (a ||| b) * 2 ^ w := by
  apply Nat.eq_of_testBit_eq
  intro i
  rw [← Nat.shiftLeft_eq, ← Nat.shiftLeft_eq, ← Nat.shiftLeft_eq, Nat.testBit_or,
    Nat.testBit_shiftLeft, Nat.testBit_shiftLeft, Nat.testBit_shiftLeft, Nat.testBit_or]
  by_cases hiw : w ≤ i <;> simp [ge_iff_le, hiw]

theorem lor_one_odd (m : Nat) : (m ||| 1) % 2 = 1 := by
  have h1 : (m ||| 1).testBit 0 = true := by
    rw [Nat.testBit_or]
    simp
  rw [Nat.testBit_zero, decide_eq_true_eq] at h1
  exact h1

theorem probeStep_stride (hsh a b W : Nat) :
    ∀ i, (probeStep hsh a b W i).stride = (probeSeq hsh a W).stride := by
  intro i
  induction i with
  | zero => rfl
  | succ i ih => rw [probeStep]; exact ih

theorem probeStep_pos_formula (hsh n w : Nat) (hw : w ≤ n) (i : Nat) :
    (probeStep hsh (2 ^ n - 2 ^ w) (2 ^ n - 1) (2 ^ w) i).pos =
      ((probeSeq hsh (2 ^ n - 2 ^ w) (2 ^ w)).pos +
        i * (probeSeq hsh (2 ^ n - 2 ^ w) (2 ^ w)).stride) % 2 ^ n := by
  induction i with
  | zero =>
    rw [probeStep, Nat.mul_comm, Nat.mul_zero, Nat.add_zero]
    refine (Nat.mod_eq_of_lt ?_).symm
    calc (probeSeq hsh (2 ^ n - 2 ^ w) (2 ^ w)).pos ≤ 2 ^ n - 2 ^ w := Nat.and_le_right
      _ < 2 ^ n := by
        have h1 := Nat.pos_pow_of_pos w (by norm_num : 0 < 2)
        have h2 := Nat.pos_pow_of_pos n (by norm_num : 0 < 2)
        omega
  | succ i ih =>
    rw [probeStep]
    simp only [moveNext, Nat.and_pow_two_sub_one_eq_mod, ih, probeStep_stride, Nat.succ_mul]
    rw [Nat.mod_add_mod, Nat.add_assoc]

/-- Claim C7: with a power-of-two table of `2 ^ n` buckets and group width
`2 ^ w ≤ 2 ^ n`, the probe schedule of `probe_seq` / `move_next` (constant
stride `(rotate_left(hash,32) & aligned_bucket_mask) | W`, advanced modulo
the table size) visits every W-aligned group exactly once during the first
`N / W` steps: the first `N / W` positions are pairwise distinct, and every
aligned group position `g * W` occurs among them. -/
theorem c7_probe_schedule_visits_each_group_once (hsh n w : Nat) (hw : w ≤ n) :
    (∀ i < 2 ^ n / 2 ^ w, ∀ j < 2 ^ n / 2 ^ w,
        (probeStep hsh (2 ^ n - 2 ^ w) (2 ^ n - 1) (2 ^ w) i).pos =
          (probeStep hsh (2 ^ n - 2 ^ w) (2 ^ n - 1) (2 ^ w) j).pos → i = j) ∧
      ∀ g < 2 ^ n / 2 ^ w, ∃ i < 2 ^ n / 2 ^ w,
        (probeStep hsh (2 ^ n - 2 ^ w) (2 ^ n - 1) (2 ^ w) i).pos = g * 2 ^ w := by
  have hMdef : 2 ^ n / 2 ^ w = 2 ^ (n - w) := by
    rw [Nat.pow_div hw (by norm_num)]
  have hNW : (2 ^ (n - w)) * 2 ^ w = 2 ^ n := by
    rw [← pow_add, Nat.sub_add_cancel hw]
  have hMpos : 0 < 2 ^ (n - w) := Nat.pos_pow_of_pos _ (by norm_num)
  have hWpos : 0 < 2 ^ w := Nat.pos_pow_of_pos _ (by norm_num)
  -- the decomposed starting group index and group stride
  set m0 := hsh / 2 ^ w % 2 ^ (n - w) with hm0
  set d := rotl32 hsh / 2 ^ w % 2 ^ (n - w) ||| 1 with hd
  have hp0 : (probeSeq hsh (2 ^ n - 2 ^ w) (2 ^ w)).pos = m0 * 2 ^ w := by
    rw [probeSeq, and_two_pow_sub_two_pow _ _ _ hw]
  have hs : (probeSeq hsh (2 ^ n - 2 ^ w) (2 ^ w)).stride = d * 2 ^ w := by
    rw [probeSeq]
    show (rotl32 hsh &&& (2 ^ n - 2 ^ w)) ||| 2 ^ w = d * 2 ^ w
    rw [and_two_pow_sub_two_pow _ _ _ hw]
    calc rotl32 hsh / 2 ^ w % 2 ^ (n - w) * 2 ^ w ||| 2 ^ w
        = rotl32 hsh / 2 ^ w % 2 ^ (n - w) * 2 ^ w ||| 1 * 2 ^ w := by rw [one_mul]
      _ = d * 2 ^ w := lor_mul_two_pow ..
  have hgroup : ∀ i, (probeStep hsh (2 ^ n - 2 ^ w) (2 ^ n - 1) (2 ^ w) i).pos =
      (m0 + i * d) % 2 ^ (n - w) * 2 ^ w := by
    intro i
    rw [probeStep_pos_formula hsh n w hw i, hp0, hs, ← Nat.mul_assoc, ← Nat.add_mul,
      ← hNW, Nat.mul_mod_mul_right]
  have hodd : d % 2 = 1 := by rw [hd]; exact lor_one_odd _
  have hcop : Nat.gcd (2 ^ (n - w)) d = 1 :=
    Nat.Coprime.pow_left _
      ((Nat.Prime.coprime_iff_not_dvd Nat.prime_two).mpr (by omega))
  have hinj : ∀ i < 2 ^ (n - w), ∀ j < 2 ^ (n - w),
      (m0 + i * d) % 2 ^ (n - w) = (m0 + j * d) % 2 ^ (n - w) → i = j := by
    intro i hi j hj hij
    have h1 : i * d ≡ j * d [MOD 2 ^ (n - w)] :=
      Nat.ModEq.add_left_cancel' m0 hij
    have h2 : i ≡ j [MOD 2 ^ (n - w)] := Nat.ModEq.cancel_right_of_coprime hcop h1
    calc i = i % 2 ^ (n - w) := (Nat.mod_eq_of_lt hi).symm
      _ = j % 2 ^ (n - w) := h2
      _ = j := Nat.mod_eq_of_lt hj
  constructor
  · intro i hi j hj hpos
    rw [hMdef] at hi hj
    refine hinj i hi j hj ?_
    have h1 := (hgroup i).symm.trans (hpos.trans (hgroup j))
    exact Nat.eq_of_mul_eq_mul_right hWpos h1
  · intro g hg
    rw [hMdef] at hg
    have hsub : (Finset.range (2 ^ (n - w))).image (fun i => (m0 + i * d) % 2 ^ (n - w)) ⊆
        Finset.range (2 ^ (n - w)) := by
      intro x hx
      rcases Finset.mem_image.mp hx with ⟨i, _, hix⟩
      exact Finset.mem_range.mpr (hix ▸ Nat.mod_lt _ hMpos)
    have hcardim : ((Finset.range (2 ^ (n - w))).image
        (fun i => (m0 + i * d) % 2 ^ (n - w))).card = 2 ^ (n - w) := by
      rw [Finset.card_image_of_injOn, Finset.card_range]
      intro i hi j hj hij
      exact hinj i (Finset.mem_range.mp hi) j (Finset.mem_range.mp hj) hij
    have heq : (Finset.range (2 ^ (n - w))).image
        (fun i => (m0 + i * d) % 2 ^ (n - w)) = Finset.range (2 ^ (n - w)) :=
      Finset.eq_of_subset_of_card_le hsub (by rw [hcardim, Finset.card_range])
    have hgmem : g ∈ (Finset.range (2 ^ (n - w))).image
        (fun i => (m0 + i * d) % 2 ^ (n - w)) := by
      rw [heq]
      exact Finset.mem_range.mpr hg
    rcases Finset.mem_image.mp hgmem with ⟨i, hi, hig⟩
    refine ⟨i, by rw [hMdef]; exact Finset.mem_range.mp hi, ?_⟩
    rw [hgroup i, hig]

/-- Witness for claim C7 at hash 123, table size `2 ^ 5 = 32`, group width
`2 ^ 3 = 8`. -/
theorem c7_witness :
    (3 ≤ 5 ∧
      ((∀ i < 2 ^ 5 / 2 ^ 3, ∀ j < 2 ^ 5 / 2 ^ 3,
          (probeStep 123 (2 ^ 5 - 2 ^ 3) (2 ^ 5 - 1) (2 ^ 3) i).pos =
            (probeStep 123 (2 ^ 5 - 2 ^ 3) (2 ^ 5 - 1) (2 ^ 3) j).pos → i = j) ∧
        ∀ g < 2 ^ 5 / 2 ^ 3, ∃ i < 2 ^ 5 / 2 ^ 3,
          (probeStep 123 (2 ^ 5 - 2 ^ 3) (2 ^ 5 - 1) (2 ^ 3) i).pos = g * 2 ^ 3)) :=
  ⟨by norm_num, c7_probe_schedule_visits_each_group_once 123 5 3 (by norm_num)⟩

theorem takeWhile_congr_mem {p q : Nat → Bool} :
    ∀ l : List Nat, (∀ a ∈ l, p a = q a) → l.takeWhile p = l.takeWhile q := by
  intro l
  induction l with
  | nil => intro _; rfl
  | cons a l ih =>
    intro h
    rw [List.takeWhile_cons, List.takeWhile_cons, h a (by simp)]
    cases hqa : q a <;>
      simp [hqa, ih fun b hb => h b (List.mem_cons_of_mem _ hb)]

theorem reverse_range_map (n : Nat) :
    (List.range n).reverse = (List.range n).map fun j => n - 1 - j := by
  apply List.ext_getElem
  · simp
  · intro i h1 h2
    rw [List.getElem_reverse]
    simp

theorem maskTrailingZeros_groupLoad (ctrl : List Nat) (pos W : Nat) :
    maskTrailingZeros (matchEmptyMask (groupLoad ctrl pos W)) =
      ((List.range W).takeWhile fun j => !(ctrl.getD (pos + j) Tag.EMPTY == Tag.EMPTY)).length := by
  unfold maskTrailingZeros matchEmptyMask groupLoad
  rw [List.map_map, List.takeWhile_map, List.length_map]
  rfl

theorem maskLeadingZeros_groupLoad (ctrl : List Nat) (i W : Nat) (hiW : W ≤ i) :
    maskLeadingZeros (matchEmptyMask (groupLoad ctrl (i - W) W)) =
      ((List.range W).takeWhile fun j => !(ctrl.getD (i - 1 - j) Tag.EMPTY == Tag.EMPTY)).length := by
  unfold maskLeadingZeros maskTrailingZeros matchEmptyMask groupLoad
  rw [List.map_map, ← List.map_reverse, reverse_range_map, List.map_map,
    List.takeWhile_map, List.length_map]
  congr 1
  apply takeWhile_congr_mem
  intro a ha
  have haW : a < W := List.mem_range.mp ha
  have hidx : i - W + (W - 1 - a) = i - 1 - a := by omega
  simp [Function.comp, hidx]

/-- Claim C4 (counterexample): over a table whose group before index 16 is
entirely EMPTY while the group starting at 16 is entirely FULL, the claim
rule (EMPTY-run total at least W implies the erase writes EMPTY) predicts
EMPTY, but `erase_index` writes DELETED. -/
theorem c4_counterexample :
    (Tag.isFull (Aligned.ctrlAt
        { W := 8
          numBuckets := 32
          ctrl := List.replicate 16 Tag.EMPTY ++ List.replicate 8 0 ++ List.replicate 8 Tag.EMPTY
          slots := List.replicate 32 ((0 : Nat), (none : Option Nat))
          items := 8
          seed := 0 } 16) = true) ∧
      Aligned.eraseTagClaimed
        { W := 8
          numBuckets := 32
          ctrl := List.replicate 16 Tag.EMPTY ++ List.replicate 8 0 ++ List.replicate 8 Tag.EMPTY
          slots := List.replicate 32 ((0 : Nat), (none : Option Nat))
          items := 8
          seed := 0 } 16 = Tag.EMPTY ∧
      (Aligned.eraseIndex
        { W := 8
          numBuckets := 32
          ctrl := List.replicate 16 Tag.EMPTY ++ List.replicate 8 0 ++ List.replicate 8 Tag.EMPTY
          slots := List.replicate 32 ((0 : Nat), (none : Option Nat))
          items := 8
          seed := 0 } 16).ctrl.getD 16 Tag.EMPTY = Tag.DELETED := by
  refine ⟨by decide, by decide, by decide⟩

/-- Claim C4 (amended): `erase_index(i)` writes DELETED when the run of
non-EMPTY tags ending at `i - 1` plus the run of non-EMPTY tags starting
at `i` (each measured inside one group load, so capped at `W`) totals at
least `W`, and writes EMPTY otherwise; in both cases `items` is
decremented by one. -/
theorem c4_erase_policy_amended {V : Type} (t : Aligned.Table V) (i n : Nat)
    (hW : 0 < t.W) (hN : t.numBuckets = 2 ^ n) (hNle : t.numBuckets ≤ U64)
    (hiW : t.W ≤ i) (hiN : i + t.W ≤ t.numBuckets) :
    Aligned.eraseIndex t i =
      { t with
          ctrl := t.ctrl.set i
            (if t.W ≤ Aligned.runNonEmptyBwd t i + Aligned.runNonEmptyFwd t i
             then Tag.DELETED else Tag.EMPTY)
          items := t.items - 1 } := by
  have hU : (0 : Nat) < U64 := by norm_num [U64]
  have hib : (i + U64 - t.W) % U64 &&& (t.numBuckets - 1) = i - t.W := by
    have h1 : i + U64 - t.W = (i - t.W) + U64 := by omega
    have h2 : i - t.W < U64 := by omega
    have h3 : i - t.W < t.numBuckets := by omega
    rw [h1, Nat.add_mod_right, Nat.mod_eq_of_lt h2, hN,
      Nat.and_pow_two_sub_one_eq_mod, ← hN, Nat.mod_eq_of_lt h3]
  show Aligned.eraseIndex t i = _
  unfold Aligned.eraseIndex
  rw [hib]
  dsimp only
  rw [maskLeadingZeros_groupLoad t.ctrl i t.W hiW, maskTrailingZeros_groupLoad]
  rfl

/-- Witness for the amended claim C4 at a concrete table: group width 8,
32 buckets, a FULL run of length 4 around the erased index 12, so the
erase writes EMPTY. -/
theorem c4_witness :
    (0 < 8 ∧ (32 : Nat) = 2 ^ 5 ∧ (32 : Nat) ≤ U64 ∧ 8 ≤ 12 ∧ 12 + 8 ≤ 32) ∧
      Aligned.eraseIndex
        { W := 8
          numBuckets := 32
          ctrl := List.replicate 10 Tag.EMPTY ++ List.replicate 4 0 ++ List.replicate 18 Tag.EMPTY
          slots := List.replicate 32 ((0 : Nat), (none : Option Nat))
          items := 4
          seed := 0 } 12 =
      { W := 8
        numBuckets := 32
        ctrl := (List.replicate 10 Tag.EMPTY ++ List.replicate 4 0 ++
            List.replicate 18 Tag.EMPTY).set 12
          (if 8 ≤ Aligned.runNonEmptyBwd
              { W := 8
                numBuckets := 32
                ctrl := List.replicate 10 Tag.EMPTY ++ List.replicate 4 0 ++
                  List.replicate 18 Tag.EMPTY
                slots := List.replicate 32 ((0 : Nat), (none : Option Nat))
                items := 4
                seed := 0 } 12 + Aligned.runNonEmptyFwd
              { W := 8
                numBuckets := 32
                ctrl := List.replicate 10 Tag.EMPTY ++ List.replicate 4 0 ++
                  List.replicate 18 Tag.EMPTY
                slots := List.replicate 32 ((0 : Nat), (none : Option Nat))
                items := 4
                seed := 0 } 12
           then Tag.DELETED else Tag.EMPTY)
        slots := List.replicate 32 ((0 : Nat), (none : Option Nat))
        items := 4 - 1
        seed := 0 } :=
  ⟨⟨by norm_num, by norm_num, by norm_num [U64], by norm_num, by norm_num⟩,
    c4_erase_policy_amended _ 12 5 (by norm_num) rfl (by norm_num [U64]) (by norm_num)
      (by norm_num)⟩

section ListLemmas

variable {α : Type} {β : Type}

theorem multiset_set_add :
    ∀ (l : List α) (i : Nat) (x : α) (h : i < l.length),
      ((l.set i x : Multiset α) + {l[i]}) = (l : Multiset α) + {x} := by
  intro l
  induction l with
  | nil => intro i x h; simp at h
  | cons c cs ih =>
    intro i x h
    cases i with
    | zero =>
      show ((x :: cs : Multiset α) + {c}) = ((c :: cs : Multiset α) + {x})
      rw [← Multiset.cons_coe, ← Multiset.cons_coe, ← Multiset.singleton_add,
        ← Multiset.singleton_add]
      simp [← Multiset.singleton_add, add_comm, add_left_comm, add_assoc]
    | succ i =>
      have hlen : i < cs.length := by simpa using h
      show ((c :: cs.set i x : Multiset α) + {cs[i]}) = ((c :: cs : Multiset α) + {x})
      rw [← Multiset.cons_coe, ← Multiset.cons_coe, ← Multiset.singleton_add,
        ← Multiset.singleton_add, add_assoc, ih i x hlen, ← add_assoc]

theorem zip_set_both (l1 : List α) (l2 : List β) (i : Nat) (a : α) (b : β) :
    (l1.set i a).zip (l2.set i b) = (l1.zip l2).set i (a, b) := by
  apply List.ext_getElem
  · simp
  · intro j h1 h2
    have hj1 : j < l1.length := by simp at h1; omega
    have hj2 : j < l2.length := by simp at h1; omega
    rcases eq_or_ne j i with rfl | hne
    · rw [List.getElem_zip, List.getElem_set_self, List.getElem_set_self,
        List.getElem_set_self]
    · rw [List.getElem_zip, List.getElem_set_ne hne.symm, List.getElem_set_ne hne.symm,
        List.getElem_set_ne hne.symm, List.getElem_zip]

theorem zip_set_left (l1 : List α) (l2 : List β) (i : Nat) (a : α) (d : β)
    (hi : i < l2.length) :
    (l1.set i a).zip l2 = (l1.zip l2).set i (a, l2.getD i d) := by
  have h2 : l2.set i (l2.getD i d) = l2 := by
    apply List.ext_getElem
    · simp
    · intro j hA hB
      rcases eq_or_ne j i with rfl | hne
      · rw [List.getElem_set_self, List.getD_eq_getElem _ _ hi]
      · rw [List.getElem_set_ne hne.symm]
  conv_lhs => rw [← h2]
  exact zip_set_both ..

theorem two_le_countP (p : α → Bool) :
    ∀ (l : List α) (i j : Nat) (hij : i < j) (hj : j < l.length),
      p l[i] → p l[j] → 2 ≤ l.countP p := by
  intro l
  induction l with
  | nil => intro i j hij hj; simp at hj
  | cons c cs ih =>
    intro i j hij hj hpi hpj
    cases i with
    | zero =>
      obtain ⟨j2, rfl⟩ : ∃ j2, j = j2 + 1 := ⟨j - 1, by omega⟩
      have hj2 : j2 < cs.length := by simpa using hj
      have hmem : cs[j2] ∈ cs := List.getElem_mem hj2
      have h1 : 0 < cs.countP p := List.countP_pos.mpr ⟨cs[j2], hmem, by simpa using hpj⟩
      rw [List.countP_cons]
      have hpc : (if p c = true then 1 else 0) = 1 := by
        simp [show p c = true by simpa using hpi]
      omega
    | succ i =>
      obtain ⟨j2, rfl⟩ : ∃ j2, j = j2 + 1 := ⟨j - 1, by omega⟩
      have := ih i j2 (by omega) (by simpa using hj) (by simpa using hpi)
        (by simpa using hpj)
      rw [List.countP_cons]
      omega

theorem countP_singleton_mset (P : α → Prop) [DecidablePred P] (a : α) :
    Multiset.countP P {a} = if P a then 1 else 0 := by
  show Multiset.countP P (a ::ₘ 0) = _
  rw [Multiset.countP_cons, Multiset.countP_zero]
  simp

theorem countP_eq_of_multiset_add (p : α → Bool) (l1 l2 : List α) (a b : α)
    (h : (l1 : Multiset α) + {a} = (l2 : Multiset α) + {b}) :
    l1.countP p + (if p a then 1 else 0) = l2.countP p + (if p b then 1 else 0) := by
  have hc := congrArg (Multiset.countP fun x => p x = true) h
  rw [Multiset.countP_add, Multiset.countP_add, Multiset.coe_countP, Multiset.coe_countP,
    countP_singleton_mset, countP_singleton_mset] at hc
  simpa using hc

theorem mem_iff_of_multiset_add {l1 l2 : List α} {a b : α}
    (h : (l1 : Multiset α) + {a} = (l2 : Multiset α) + {b}) {P : α → Prop}
    (hpa : ¬ P a) (hpb : ¬ P b) :
    (∃ c ∈ l1, P c) ↔ ∃ c ∈ l2, P c := by
  constructor
  · rintro ⟨c, hc, hPc⟩
    have h1 : c ∈ (l1 : Multiset α) + {a} := Multiset.mem_add.mpr (Or.inl (by simpa using hc))
    rw [h] at h1
    rcases Multiset.mem_add.mp h1 with h2 | h2
    · exact ⟨c, by simpa using h2, hPc⟩
    · rw [Multiset.mem_singleton.mp h2] at hPc
      exact absurd hPc hpb
  · rintro ⟨c, hc, hPc⟩
    have h1 : c ∈ (l2 : Multiset α) + {b} := Multiset.mem_add.mpr (Or.inl (by simpa using hc))
    rw [← h] at h1
    rcases Multiset.mem_add.mp h1 with h2 | h2
    · exact ⟨c, by simpa using h2, hPc⟩
    · rw [Multiset.mem_singleton.mp h2] at hPc
      exact absurd hPc hpa

theorem getD_set_self (l : List α) (i : Nat) (x d : α) (h : i < l.length) :
    (l.set i x).getD i d = x := by
  rw [List.getD_eq_getElem _ _ (by simpa using h), List.getElem_set_self]

theorem getD_set_ne (l : List α) {i j : Nat} (x d : α) (h : i ≠ j) :
    (l.set i x).getD j d = l.getD j d := by
  rcases Nat.lt_or_ge j l.length with hj | hj
  · rw [List.getD_eq_getElem _ _ (by simpa using hj), List.getD_eq_getElem _ _ hj,
      List.getElem_set_ne h]
  · rw [List.getD_eq_default _ _ (by simpa using hj), List.getD_eq_default _ _ hj]

end ListLemmas

namespace Aligned

variable {V : Type}

theorem findKeyHit_eq_some {t : Table V} {pos tag k idx : Nat}
    (h : findKeyHit t pos tag k = some idx) :
    ∃ bit < t.W, ctrlAt t (pos + bit) = tag ∧
      idx = (pos + bit) &&& (t.numBuckets - 1) ∧ keyAt t idx = k := by
  unfold findKeyHit at h
  rcases Option.map_eq_some'.mp h with ⟨bit, hfind, hidx⟩
  have hmem := List.mem_of_find?_eq_some hfind
  have hkey := List.find?_some hfind
  rcases List.mem_filter.mp hmem with ⟨hrange, htag⟩
  refine ⟨bit, List.mem_range.mp hrange, by simpa using htag, hidx.symm, ?_⟩
  rw [← hidx]
  simpa using hkey

theorem findKeyHit_eq_none_iff {t : Table V} {pos tag k : Nat} :
    findKeyHit t pos tag k = none ↔
      ∀ bit < t.W, ctrlAt t (pos + bit) = tag →
        keyAt t ((pos + bit) &&& (t.numBuckets - 1)) ≠ k := by
  unfold findKeyHit
  rw [Option.map_eq_none', List.find?_eq_none]
  constructor
  · intro h bit hbit htag hkey
    exact absurd (by simpa using hkey)
      (by simpa using h bit (List.mem_filter.mpr ⟨List.mem_range.mpr hbit, by simpa using htag⟩))
  · intro h bit hmem
    rcases List.mem_filter.mp hmem with ⟨hrange, htag⟩
    simpa using h bit (List.mem_range.mp hrange) (by simpa using htag)

theorem findKeyHit_isSome {t : Table V} {pos tag k : Nat}
    (bit : Nat) (hbit : bit < t.W) (htag : ctrlAt t (pos + bit) = tag)
    (hkey : keyAt t ((pos + bit) &&& (t.numBuckets - 1)) = k) :
    ∃ idx, findKeyHit t pos tag k = some idx ∧ keyAt t idx = k := by
  rcases hidx : findKeyHit t pos tag k with _ | idx
  · exact absurd hkey (findKeyHit_eq_none_iff.mp hidx bit hbit htag)
  · rcases findKeyHit_eq_some hidx with ⟨bit2, _, _, _, hk2⟩
    exact ⟨idx, rfl, hk2⟩

theorem cells_length (t : Table V) (h1 : t.ctrl.length = t.numBuckets)
    (h2 : t.slots.length = t.numBuckets) : (cells t).length = t.numBuckets := by
  unfold cells
  rw [List.length_zip, h1, h2, Nat.min_self]

theorem cells_getElem (t : Table V) (i : Nat) (h1 : t.ctrl.length = t.numBuckets)
    (h2 : t.slots.length = t.numBuckets) (hi : i < t.numBuckets) :
    (cells t).getD i (Tag.EMPTY, 0, none) = (ctrlAt t i, slotAt t i) := by
  have hlen : i < (cells t).length := by rw [cells_length t h1 h2]; exact hi
  unfold cells ctrlAt slotAt
  rw [List.getD_eq_getElem _ _ (by simpa [cells] using hlen), List.getElem_zip,
    List.getD_eq_getElem _ _ (by omega : i < t.ctrl.length),
    List.getD_eq_getElem _ _ (by omega : i < t.slots.length)]

theorem unique_index (t : Table V) (hu : ∀ k2, keyCount t k2 ≤ 1)
    (h1 : t.ctrl.length = t.numBuckets) (h2 : t.slots.length = t.numBuckets)
    {i j k : Nat} (hi : i < t.numBuckets) (hj : j < t.numBuckets)
    (hfi : Tag.isFull (ctrlAt t i)) (hfj : Tag.isFull (ctrlAt t j))
    (hki : keyAt t i = k) (hkj : keyAt t j = k) : i = j := by
  by_contra hne
  have hlen := cells_length t h1 h2
  have hcell : ∀ m, m < t.numBuckets → Tag.isFull (ctrlAt t m) → keyAt t m = k →
      ∀ hm : m < (cells t).length, liveCell k (cells t)[m] = true := by
    intro m hmN hf hk hm
    have := cells_getElem t m h1 h2 hmN
    rw [List.getD_eq_getElem _ _ hm] at this
    rw [this, liveCell]
    simp only [Bool.and_eq_true, beq_iff_eq]
    exact ⟨hf, hk⟩
  have h2le : 2 ≤ (cells t).countP (liveCell k) := by
    rcases Nat.lt_or_ge i j with hij | hij
    · exact two_le_countP (liveCell k) (cells t) i j hij (by omega)
        (hcell i hi hfi hki (by omega)) (hcell j hj hfj hkj (by omega))
    · have hji : j < i := by omega
      exact two_le_countP (liveCell k) (cells t) j i hji (by omega)
        (hcell j hj hfj hkj (by omega)) (hcell i hi hfi hki (by omega))
  have := hu k
  rw [keyCount] at this
  omega

theorem applyPathGo_spec (W : Nat) (hW : 0 < W) (queue : List Nat) (N : Nat)
    (hq : ∀ j, queue.getD j 0 + W ≤ N) :
    ∀ fuel path bucket (ctrl : List Nat) (slots : List (Nat × Option V)) root ctrl2 slots2,
      applyPathGo W queue fuel path bucket ctrl slots = (root, ctrl2, slots2) →
      path < fuel → ctrl.length = N → slots.length = N → bucket < N →
      ctrl2.length = N ∧ slots2.length = N ∧ root < N ∧
      ((ctrl2.zip slots2 : Multiset (Nat × Nat × Option V)) +
          {(ctrl.getD bucket Tag.EMPTY, slots.getD bucket (0, none))} =
        (ctrl.zip slots : Multiset (Nat × Nat × Option V)) +
          {(ctrl2.getD root Tag.EMPTY, slots2.getD root (0, none))}) ∧
      (path < 2 → root = bucket) ∧
      (2 ≤ path → ∃ p2 < 2, ∃ off < W, root = queue.getD p2 0 + off) := by
  intro fuel
  induction fuel with
  | zero => intro path bucket ctrl slots root ctrl2 slots2 hrun hpf; omega
  | succ fuel ih =>
    intro path bucket ctrl slots root ctrl2 slots2 hrun hpf hcl hsl hb
    rw [applyPathGo] at hrun
    by_cases hp2 : path < 2
    · rw [if_pos hp2] at hrun
      obtain ⟨rfl, rfl, rfl⟩ : root = bucket ∧ ctrl2 = ctrl ∧ slots2 = slots := by
        have h1 := congrArg Prod.fst hrun
        have h2 := congrArg (fun r => r.2.1) hrun
        have h3 := congrArg (fun r => r.2.2) hrun
        exact ⟨h1.symm, h2.symm, h3.symm⟩
      exact ⟨hcl, hsl, hb, rfl, fun _ => rfl, fun h => absurd h (by omega)⟩
    · rw [if_neg hp2] at hrun
      have hple : 2 ≤ path := by omega
      set parentPath := (path - 2) / W with hpp
      set parentOff := (path - 2) % W with hpo
      set parentBucket := queue.getD parentPath 0 + parentOff with hpb
      set kv := slots.getD parentBucket (0, none) with hkv
      set tg := ctrl.getD parentBucket Tag.EMPTY with htg
      have hppf : parentPath < fuel := by
        have h1 : parentPath ≤ path - 2 := Nat.div_le_self ..
        omega
      have hpbN : parentBucket < N := by
        have h1 := hq parentPath
        have h2 : parentOff < W := Nat.mod_lt _ hW
        omega
      have hrec := ih parentPath parentBucket (ctrl.set bucket tg) (slots.set bucket kv)
        root ctrl2 slots2 hrun hppf (by simpa using hcl) (by simpa using hsl) hpbN
      obtain ⟨hc2, hs2, hrootN, hmult, hlow, hhigh⟩ := hrec
      refine ⟨hc2, hs2, hrootN, ?_, fun h => absurd h (by omega), fun _ => ?_⟩
      · have hparent_cell :
            ((ctrl.set bucket tg).getD parentBucket Tag.EMPTY,
              (slots.set bucket kv).getD parentBucket (0, none)) = (tg, kv) := by
          rcases eq_or_ne bucket parentBucket with rfl | hne
          · rw [getD_set_self _ _ _ _ (by omega), getD_set_self _ _ _ _ (by omega)]
          · rw [getD_set_ne _ _ _ hne, getD_set_ne _ _ _ hne]
        rw [hparent_cell] at hmult
        have hzip : (ctrl.set bucket tg).zip (slots.set bucket kv) =
            (ctrl.zip slots).set bucket (tg, kv) := zip_set_both ..
        have hbz : bucket < (ctrl.zip slots).length := by
          rw [List.length_zip]
          omega
        have hset := multiset_set_add (ctrl.zip slots) bucket (tg, kv) hbz
        have hzb : (ctrl.zip slots)[bucket] =
            (ctrl.getD bucket Tag.EMPTY, slots.getD bucket (0, none)) := by
          rw [List.getElem_zip, List.getD_eq_getElem _ _ (by omega : bucket < ctrl.length),
            List.getD_eq_getElem _ _ (by omega : bucket < slots.length)]
        rw [hzb] at hset
        rw [hzip] at hmult
        have hfinal :
            (ctrl2.zip slots2 : Multiset (Nat × Nat × Option V)) +
                {(ctrl.getD bucket Tag.EMPTY, slots.getD bucket (0, none))} + {(tg, kv)} =
              (ctrl.zip slots : Multiset (Nat × Nat × Option V)) +
                {(ctrl2.getD root Tag.EMPTY, slots2.getD root (0, none))} + {(tg, kv)} := by
          calc (ctrl2.zip slots2 : Multiset (Nat × Nat × Option V)) +
              {(ctrl.getD bucket Tag.EMPTY, slots.getD bucket (0, none))} + {(tg, kv)}
              = (ctrl2.zip slots2 : Multiset (Nat × Nat × Option V)) + {(tg, kv)} +
                {(ctrl.getD bucket Tag.EMPTY, slots.getD bucket (0, none))} := by abel
            _ = ((ctrl.zip slots).set bucket (tg, kv) : Multiset (Nat × Nat × Option V)) +
                {(ctrl2.getD root Tag.EMPTY, slots2.getD root (0, none))} +
                {(ctrl.getD bucket Tag.EMPTY, slots.getD bucket (0, none))} := by rw [hmult]
            _ = ((ctrl.zip slots).set bucket (tg, kv) : Multiset (Nat × Nat × Option V)) +
                {(ctrl.getD bucket Tag.EMPTY, slots.getD bucket (0, none))} +
                {(ctrl2.getD root Tag.EMPTY, slots2.getD root (0, none))} := by abel
            _ = (ctrl.zip slots : Multiset (Nat × Nat × Option V)) + {(tg, kv)} +
                {(ctrl2.getD root Tag.EMPTY, slots2.getD root (0, none))} := by rw [hset]
            _ = (ctrl.zip slots : Multiset (Nat × Nat × Option V)) +
                {(ctrl2.getD root Tag.EMPTY, slots2.getD root (0, none))} + {(tg, kv)} := by
              abel
        exact add_right_cancel hfinal
      · rcases Nat.lt_or_ge parentPath 2 with hpl | hpg
        · exact ⟨parentPath, hpl, parentOff, Nat.mod_lt _ hW, hlow hpl⟩
        · exact hhigh hpg

theorem firstEmptyOffset_some {t : Table V} {pos e : Nat}
    (h : firstEmptyOffset t pos = some e) :
    e < t.W ∧ ctrlAt t (pos + e) = Tag.EMPTY := by
  unfold firstEmptyOffset at h
  refine ⟨List.mem_range.mp (List.mem_of_find?_eq_some h), ?_⟩
  have := List.find?_some h
  simpa using this

theorem firstEmptyOffset_none_iff {t : Table V} {pos : Nat} :
    firstEmptyOffset t pos = none ↔ ∀ j < t.W, ctrlAt t (pos + j) ≠ Tag.EMPTY := by
  unfold firstEmptyOffset
  rw [List.find?_eq_none]
  constructor
  · intro h j hj
    simpa using h j (List.mem_range.mpr hj)
  · intro h j hj
    simpa using h j (List.mem_range.mp hj)

theorem expandChildren_inl (t : Table V) (amask pos writePos : Nat) :
    ∀ (offs : List Nat) (queue : List Nat) (pi bi : Nat),
      expandChildren t amask pos writePos offs queue = Sum.inl (pi, bi) →
      ∃ i ∈ offs, ∃ e,
        firstEmptyOffset t (pos ^^^ (scramble_tag (ctrlAt t (pos + i)) &&& amask)) = some e ∧
        pi = writePos + i ∧
        bi = (pos ^^^ (scramble_tag (ctrlAt t (pos + i)) &&& amask)) + e := by
  intro offs
  induction offs with
  | nil => intro queue pi bi h; exact absurd h (by rw [expandChildren]; simp)
  | cons i rest ih =>
    intro queue pi bi h
    rw [expandChildren] at h
    rcases he : firstEmptyOffset t (pos ^^^ (scramble_tag (ctrlAt t (pos + i)) &&& amask))
      with _ | e
    · rw [he] at h
      rcases ih _ _ _ h with ⟨i2, hi2, e2, he2, hpi, hbi⟩
      exact ⟨i2, List.mem_cons_of_mem _ hi2, e2, he2, hpi, hbi⟩
    · rw [he] at h
      obtain ⟨h1, h2⟩ : pi = writePos + i ∧ bi =
          (pos ^^^ (scramble_tag (ctrlAt t (pos + i)) &&& amask)) + e := by
        have h1 := congrArg (fun x => match x with | Sum.inl p => p.1 | Sum.inr _ => 0) h
        have h2 := congrArg (fun x => match x with | Sum.inl p => p.2 | Sum.inr _ => 0) h
        simp at h1 h2
        exact ⟨h1.symm, h2.symm⟩
      exact ⟨i, by simp, e, he, h1, h2⟩

theorem expandChildren_inr (t : Table V) (amask pos writePos : Nat) :
    ∀ (offs : List Nat) (queue q2 : List Nat),
      expandChildren t amask pos writePos offs queue = Sum.inr q2 →
      q2 = queue ++ offs.map (fun i => pos ^^^ (scramble_tag (ctrlAt t (pos + i)) &&& amask)) ∧
      ∀ i ∈ offs,
        firstEmptyOffset t (pos ^^^ (scramble_tag (ctrlAt t (pos + i)) &&& amask)) = none := by
  intro offs
  induction offs with
  | nil =>
    intro queue q2 h
    rw [expandChildren] at h
    refine ⟨?_, by simp⟩
    have := congrArg (fun x => match x with | Sum.inl _ => ([] : List Nat) | Sum.inr q => q) h
    simpa using this.symm
  | cons i rest ih =>
    intro queue q2 h
    rw [expandChildren] at h
    rcases he : firstEmptyOffset t (pos ^^^ (scramble_tag (ctrlAt t (pos + i)) &&& amask))
      with _ | e
    · rw [he] at h
      rcases ih _ _ h with ⟨hq, hrest⟩
      refine ⟨by rw [hq]; simp, ?_⟩
      intro i2 hi2
      rcases List.mem_cons.mp hi2 with rfl | hi2
      · exact he
      · exact hrest i2 hi2
    · rw [he] at h
      exact absurd h (by simp)

theorem expandChildren_all_none (t : Table V) (amask pos writePos : Nat) :
    ∀ (offs : List Nat) (queue : List Nat),
      (∀ i ∈ offs,
        firstEmptyOffset t (pos ^^^ (scramble_tag (ctrlAt t (pos + i)) &&& amask)) = none) →
      expandChildren t amask pos writePos offs queue = Sum.inr
        (queue ++ offs.map fun i => pos ^^^ (scramble_tag (ctrlAt t (pos + i)) &&& amask)) := by
  intro offs
  induction offs with
  | nil => intro queue h; rw [expandChildren]; simp
  | cons i rest ih =>
    intro queue h
    rw [expandChildren, h i (by simp), ih _ fun i2 hi2 => h i2 (List.mem_cons_of_mem _ hi2)]
    simp

theorem xor_mul_two_pow (a b w : Nat) : a * 2 ^ w ^^^ b * 2 ^ w = (a ^^^ b) * 2 ^ w := by
  apply Nat.eq_of_testBit_eq
  intro i
  rw [← Nat.shiftLeft_eq, ← Nat.shiftLeft_eq, ← Nat.shiftLeft_eq, Nat.testBit_xor,
    Nat.testBit_shiftLeft, Nat.testBit_shiftLeft, Nat.testBit_shiftLeft, Nat.testBit_xor]
  by_cases hiw : w ≤ i <;> simp [ge_iff_le, hiw]

theorem aligned_child (n w : Nat) (hw : w ≤ n) (pos s : Nat)
    (hdvd : 2 ^ w ∣ pos) (hlt : pos + 2 ^ w ≤ 2 ^ n) :
    2 ^ w ∣ (pos ^^^ (s &&& (2 ^ n - 2 ^ w))) ∧
      (pos ^^^ (s &&& (2 ^ n - 2 ^ w))) + 2 ^ w ≤ 2 ^ n := by
  have hWpos : 0 < 2 ^ w := Nat.pos_pow_of_pos _ (by norm_num)
  obtain ⟨a, ha⟩ := hdvd
  have hmask := and_two_pow_sub_two_pow s n w hw
  set m := s / 2 ^ w % 2 ^ (n - w) with hm
  have hmlt : m < 2 ^ (n - w) := Nat.mod_lt _ (Nat.pos_pow_of_pos _ (by norm_num))
  have hNW : 2 ^ (n - w) * 2 ^ w = 2 ^ n := by rw [← pow_add, Nat.sub_add_cancel hw]
  rw [Nat.mul_comm] at ha
  have halt : a < 2 ^ (n - w) := by
    by_contra hcon
    push_neg at hcon
    have h5 : 2 ^ (n - w) * 2 ^ w ≤ a * 2 ^ w :=
      Nat.mul_le_mul_right _ hcon
    rw [hNW] at h5
    omega
  have hxor : pos ^^^ (s &&& (2 ^ n - 2 ^ w)) = (a ^^^ m) * 2 ^ w := by
    rw [ha, hmask, xor_mul_two_pow]
  have hxlt : a ^^^ m < 2 ^ (n - w) := Nat.xor_lt_two_pow halt hmlt
  constructor
  · rw [hxor]
    exact ⟨a ^^^ m, by ring⟩
  · rw [hxor]
    have : (a ^^^ m) + 1 ≤ 2 ^ (n - w) := hxlt
    calc (a ^^^ m) * 2 ^ w + 2 ^ w = ((a ^^^ m) + 1) * 2 ^ w := by ring
      _ ≤ 2 ^ (n - w) * 2 ^ w := Nat.mul_le_mul_right _ this
      _ = 2 ^ n := hNW

theorem nodePosGo_small (t : Table V) (amask pos0 pos1 : Nat) (fuel : Nat) :
    nodePosGo t amask pos0 pos1 fuel 0 = pos0 ∧
      nodePosGo t amask pos0 pos1 fuel 1 = pos1 := by
  cases fuel <;> simp [nodePosGo]

theorem nodePosGo_congr (t : Table V) (amask pos0 pos1 : Nat) :
    ∀ j fuel fuel2, j ≤ fuel → j ≤ fuel2 →
      nodePosGo t amask pos0 pos1 fuel j = nodePosGo t amask pos0 pos1 fuel2 j := by
  intro j
  induction j using Nat.strong_induction_on with
  | _ j ih =>
    intro fuel fuel2 h1 h2
    rcases j with _ | _ | j
    · rw [(nodePosGo_small t amask pos0 pos1 fuel).1,
        (nodePosGo_small t amask pos0 pos1 fuel2).1]
    · rw [(nodePosGo_small t amask pos0 pos1 fuel).2,
        (nodePosGo_small t amask pos0 pos1 fuel2).2]
    · obtain ⟨f, rfl⟩ : ∃ f, fuel = f + 1 := ⟨fuel - 1, by omega⟩
      obtain ⟨f2, rfl⟩ : ∃ f2, fuel2 = f2 + 1 := ⟨fuel2 - 1, by omega⟩
      simp only [nodePosGo, if_neg (show ¬ (j + 2 = 0) by omega),
        if_neg (show ¬ (j + 2 = 1) by omega)]
      have hd : (j + 2 - 2) / t.W ≤ j := by
        have := Nat.div_le_self j t.W
        simpa using this
      rw [ih ((j + 2 - 2) / t.W) (by simp at hd ⊢; omega) f f2 (by omega) (by omega)]

theorem nodePos_zero (t : Table V) (amask pos0 pos1 : Nat) :
    nodePos t amask pos0 pos1 0 = pos0 := rfl

theorem nodePos_one (t : Table V) (amask pos0 pos1 : Nat) :
    nodePos t amask pos0 pos1 1 = pos1 := rfl

theorem nodePos_child (t : Table V) (amask pos0 pos1 : Nat) (hW : 0 < t.W)
    (r i : Nat) (hi : i < t.W) :
    nodePos t amask pos0 pos1 (r * t.W + 2 + i) =
      nodePos t amask pos0 pos1 r ^^^
        (scramble_tag (ctrlAt t (nodePos t amask pos0 pos1 r + i)) &&& amask) := by
  show nodePosGo t amask pos0 pos1 (r * t.W + 2 + i) (r * t.W + 2 + i) = _
  obtain ⟨f, hf⟩ : ∃ f, r * t.W + 2 + i = f + 1 := ⟨r * t.W + 1 + i, by omega⟩
  rw [hf]
  simp only [nodePosGo, if_neg (show ¬ (f + 1 = 0) by omega),
    if_neg (show ¬ (f + 1 = 1) by omega)]
  have hcomm : t.W * r = r * t.W := Nat.mul_comm ..
  have hdiv : (f + 1 - 2) / t.W = r := by
    have he : f + 1 - 2 = t.W * r + i := by omega
    rw [he, Nat.mul_add_div hW]
    simp [Nat.div_eq_of_lt hi]
  have hmod : (f + 1 - 2) % t.W = i := by
    have he : f + 1 - 2 = t.W * r + i := by omega
    rw [he, Nat.mul_add_mod]
    exact Nat.mod_eq_of_lt hi
  have hcongr : nodePosGo t amask pos0 pos1 f ((f + 1 - 2) / t.W) =
      nodePos t amask pos0 pos1 r := by
    rw [hdiv]
    have hrf : r ≤ f := by
      have h5 : r ≤ r * t.W := Nat.le_mul_of_pos_right _ hW
      omega
    exact nodePosGo_congr t amask pos0 pos1 r f r hrf (Nat.le_refl r)
  rw [hcongr, hmod]

theorem bfsGo_zero (t : Table V) (amask readPos : Nat) (queue : List Nat) :
    bfsGo t amask 0 readPos queue = Except.error rehashMsg := rfl

theorem bfsGo_succ (t : Table V) (amask fuel readPos : Nat) (queue : List Nat) :
    bfsGo t amask (fuel + 1) readPos queue =
      if BFS_MAX t.W ≤ readPos * t.W + 2 then Except.error rehashMsg
      else
        match expandChildren t amask (queue.getD readPos 0) (readPos * t.W + 2)
            (List.range t.W) queue with
        | Sum.inl (pathIndex, bucketIndex) => Except.ok (pathIndex, bucketIndex, queue)
        | Sum.inr queue2 => bfsGo t amask fuel (readPos + 1) queue2 := by
  rw [bfsGo]

theorem BFS_MAX_decompose (W : Nat) :
    BFS_MAX W = 2 * (1 + W + W * W) * W + 2 := by
  unfold BFS_MAX
  ring

theorem bfsGo_characterize (t : Table V) (n w : Nat)
    (hn : t.numBuckets = 2 ^ n) (hwt : t.W = 2 ^ w) (hwn : w ≤ n) (pos0 pos1 : Nat) :
    ∀ fuel readPos queue,
      2 * (1 + t.W + t.W * t.W) + 1 ≤ fuel + readPos →
      queue.length = 2 + readPos * t.W →
      (∀ j, j < queue.length →
        queue.getD j 0 = nodePos t (t.numBuckets - t.W) pos0 pos1 j) →
      (∀ j, j < queue.length →
        firstEmptyOffset t (nodePos t (t.numBuckets - t.W) pos0 pos1 j) = none) →
      (∀ j, 2 ^ w ∣ queue.getD j 0 ∧ queue.getD j 0 + 2 ^ w ≤ 2 ^ n) →
      (bfsGo t (t.numBuckets - t.W) fuel readPos queue = Except.error rehashMsg ↔
        ∀ j, j < BFS_MAX t.W →
          firstEmptyOffset t (nodePos t (t.numBuckets - t.W) pos0 pos1 j) = none) ∧
      ∀ path bidx q2,
        bfsGo t (t.numBuckets - t.W) fuel readPos queue = Except.ok (path, bidx, q2) →
        2 ≤ path ∧ path < BFS_MAX t.W ∧
        (∃ e, firstEmptyOffset t (nodePos t (t.numBuckets - t.W) pos0 pos1 path) = some e ∧
          bidx = nodePos t (t.numBuckets - t.W) pos0 pos1 path + e) ∧
        (∀ j, j < q2.length →
          q2.getD j 0 = nodePos t (t.numBuckets - t.W) pos0 pos1 j) ∧
        2 ≤ q2.length ∧
        (∀ j, 2 ^ w ∣ q2.getD j 0 ∧ q2.getD j 0 + 2 ^ w ≤ 2 ^ n) ∧
        2 ^ w ∣ nodePos t (t.numBuckets - t.W) pos0 pos1 path ∧
        nodePos t (t.numBuckets - t.W) pos0 pos1 path + 2 ^ w ≤ 2 ^ n := by
  have hW : 0 < t.W := by rw [hwt]; exact Nat.pos_pow_of_pos _ (by norm_num)
  intro fuel
  induction fuel with
  | zero =>
    intro readPos queue hfuel hlen hnode hempty halign
    have hbig : BFS_MAX t.W ≤ queue.length := by
      rw [BFS_MAX_decompose, hlen]
      have h1 : (2 * (1 + t.W + t.W * t.W) + 1) * t.W ≤ readPos * t.W :=
        Nat.mul_le_mul_right _ (by omega)
      have h2 : (2 * (1 + t.W + t.W * t.W) + 1) * t.W =
          2 * (1 + t.W + t.W * t.W) * t.W + t.W := by ring
      omega
    refine ⟨?_, ?_⟩
    · rw [bfsGo_zero]
      simp only [true_iff]
      intro j hj
      exact hempty j (by omega)
    · intro path bidx q2 hok
      rw [bfsGo_zero] at hok
      exact absurd hok (by simp)
  | succ fuel ih =>
    intro readPos queue hfuel hlen hnode hempty halign
    rw [bfsGo_succ]
    by_cases hguard : BFS_MAX t.W ≤ readPos * t.W + 2
    · rw [if_pos hguard]
      refine ⟨?_, ?_⟩
      · simp only [true_iff]
        intro j hj
        exact hempty j (by omega)
      · intro path bidx q2 hok
        exact absurd hok (by simp)
    · rw [if_neg hguard]
      have hrq : readPos < queue.length := by
        have h1 : readPos ≤ readPos * t.W := Nat.le_mul_of_pos_right _ hW
        omega
      have hposq : queue.getD readPos 0 =
          nodePos t (t.numBuckets - t.W) pos0 pos1 readPos := hnode readPos hrq
      -- the bound on children indices
      have hchildlt : ∀ i < t.W, readPos * t.W + 2 + i < BFS_MAX t.W := by
        intro i hi
        rw [BFS_MAX_decompose]
        have h1 : readPos * t.W < 2 * (1 + t.W + t.W * t.W) * t.W := by
          rw [BFS_MAX_decompose] at hguard
          omega
        have h2 : readPos < 2 * (1 + t.W + t.W * t.W) :=
          Nat.lt_of_mul_lt_mul_right h1
        have h3 : readPos + 1 ≤ 2 * (1 + t.W + t.W * t.W) := h2
        have h4 : (readPos + 1) * t.W ≤ 2 * (1 + t.W + t.W * t.W) * t.W :=
          Nat.mul_le_mul_right _ h3
        have h5 : (readPos + 1) * t.W = readPos * t.W + t.W := by ring
        omega
      rcases hexp : expandChildren t (t.numBuckets - t.W) (queue.getD readPos 0)
          (readPos * t.W + 2) (List.range t.W) queue with p | q2
      · -- found an empty slot among the children
        rcases p with ⟨pi, bi⟩
        rcases expandChildren_inl t _ _ _ _ _ _ _ hexp with ⟨i, hiW, e, hsome, hpi, hbi⟩
        have hiW2 : i < t.W := List.mem_range.mp hiW
        have hchild : queue.getD readPos 0 ^^^
            (scramble_tag (ctrlAt t (queue.getD readPos 0 + i)) &&& (t.numBuckets - t.W)) =
            nodePos t (t.numBuckets - t.W) pos0 pos1 (readPos * t.W + 2 + i) := by
          rw [hposq, nodePos_child t _ pos0 pos1 hW readPos i hiW2]
        refine ⟨?_, ?_⟩
        · refine iff_of_false (by simp) ?_
          intro hall
          have := hall (readPos * t.W + 2 + i) (hchildlt i hiW2)
          rw [← hchild] at this
          rw [hsome] at this
          exact Option.some_ne_none _ this
        · intro path bidx q3 hok
          obtain ⟨h1, h2, h3⟩ : pi = path ∧ bi = bidx ∧ queue = q3 := by
            have := Except.ok.inj hok
            exact ⟨congrArg Prod.fst this,
              congrArg (fun x => x.2.1) this, congrArg (fun x => x.2.2) this⟩
          subst h1 h2 h3
          have hamask : t.numBuckets - t.W = 2 ^ n - 2 ^ w := by rw [hn, hwt]
          have halignpath : 2 ^ w ∣ nodePos t (t.numBuckets - t.W) pos0 pos1 pi ∧
              nodePos t (t.numBuckets - t.W) pos0 pos1 pi + 2 ^ w ≤ 2 ^ n := by
            rw [hpi, ← hchild, hamask]
            exact aligned_child n w hwn _ _ (halign readPos).1 (halign readPos).2
          refine ⟨by omega, by rw [hpi]; exact hchildlt i hiW2, ?_, hnode, by omega, halign,
            halignpath.1, halignpath.2⟩
          refine ⟨e, ?_, ?_⟩
          · rw [hpi, ← hchild, hsome]
          · rw [hbi, hpi, ← hchild]
      · -- no child has an empty slot: enqueue them all and recurse
        rcases expandChildren_inr t _ _ _ _ _ _ hexp with ⟨hq2, hnonew⟩
        have hmaplen : (List.map (fun i => queue.getD readPos 0 ^^^
            (scramble_tag (ctrlAt t (queue.getD readPos 0 + i)) &&& (t.numBuckets - t.W)))
            (List.range t.W)).length = t.W := by simp
        have hlen2 : q2.length = 2 + (readPos + 1) * t.W := by
          rw [hq2, List.length_append, hmaplen, hlen]
          ring
        have hchild : ∀ m, m < t.W → queue.getD readPos 0 ^^^
            (scramble_tag (ctrlAt t (queue.getD readPos 0 + m)) &&& (t.numBuckets - t.W)) =
            nodePos t (t.numBuckets - t.W) pos0 pos1 (readPos * t.W + 2 + m) := by
          intro m hm
          rw [hposq, nodePos_child t _ pos0 pos1 hW readPos m hm]
        have hgetnew : ∀ m, m < t.W →
            q2.getD (queue.length + m) 0 =
              nodePos t (t.numBuckets - t.W) pos0 pos1 (readPos * t.W + 2 + m) := by
          intro m hm
          rw [hq2, List.getD_append_right _ _ _ _ (by omega),
            Nat.add_sub_cancel_left]
          rw [List.getD_eq_getElem _ _ (by rw [hmaplen]; exact hm)]
          rw [List.getElem_map, List.getElem_range]
          exact hchild m hm
        have hnode2 : ∀ j, j < q2.length →
            q2.getD j 0 = nodePos t (t.numBuckets - t.W) pos0 pos1 j := by
          intro j hj
          rcases Nat.lt_or_ge j queue.length with hjq | hjq
          · rw [hq2, List.getD_append _ _ _ _ hjq]
            exact hnode j hjq
          · obtain ⟨m, rfl⟩ : ∃ m, j = queue.length + m := ⟨j - queue.length, by omega⟩
            have hm : m < t.W := by
              rw [hlen2] at hj
              have : (readPos + 1) * t.W = readPos * t.W + t.W := by ring
              omega
            rw [hgetnew m hm, hlen]
            congr 1
            omega
        have hempty2 : ∀ j, j < q2.length →
            firstEmptyOffset t (nodePos t (t.numBuckets - t.W) pos0 pos1 j) = none := by
          intro j hj
          rcases Nat.lt_or_ge j queue.length with hjq | hjq
          · exact hempty j hjq
          · obtain ⟨m, rfl⟩ : ∃ m, j = queue.length + m := ⟨j - queue.length, by omega⟩
            have hm : m < t.W := by
              rw [hlen2] at hj
              have : (readPos + 1) * t.W = readPos * t.W + t.W := by ring
              omega
            have := hnonew m (List.mem_range.mpr hm)
            rw [hchild m hm] at this
            rw [hlen]
            rw [show 2 + readPos * t.W + m = readPos * t.W + 2 + m by ring]
            exact this
        have halign2 : ∀ j, 2 ^ w ∣ q2.getD j 0 ∧ q2.getD j 0 + 2 ^ w ≤ 2 ^ n := by
          intro j
          rcases Nat.lt_or_ge j queue.length with hjq | hjq
          · rw [hq2, List.getD_append _ _ _ _ hjq]
            exact halign j
          · rw [hq2, List.getD_append_right _ _ _ _ (by omega)]
            rcases Nat.lt_or_ge (j - queue.length) t.W with hm | hm
            · rw [List.getD_eq_getElem _ _ (by rw [hmaplen]; exact hm)]
              rw [List.getElem_map, List.getElem_range]
              have halignb := halign readPos
              have hamask : t.numBuckets - t.W = 2 ^ n - 2 ^ w := by rw [hn, hwt]
              rw [hamask]
              exact aligned_child n w hwn _ _ halignb.1 halignb.2
            · rw [List.getD_eq_default _ _ (by rw [hmaplen]; exact hm)]
              refine ⟨dvd_zero _, ?_⟩
              have := Nat.pow_le_pow_right (show 1 ≤ 2 by norm_num) hwn
              omega
        exact ih (readPos + 1) q2 (by omega) hlen2 hnode2 hempty2 halign2

theorem getGo_second (t : Table V) (k tag fuel h64 : Nat) :
    getGo t k tag (fuel + 1) true h64 = getGo t k tag 1 true h64 := by
  unfold getGo
  rfl

theorem getGo_first (t : Table V) (k tag fuel h64 : Nat) :
    getGo t k tag (fuel + 2) false h64 = getGo t k tag 2 false h64 := by
  conv_lhs => rw [getGo]
  conv_rhs => rw [getGo]
  rcases findKeyHit t (h64 &&& (t.numBuckets - t.W)) tag k with _ | idx
  · exact getGo_second ..
  · rfl

theorem pow2_le_exponents {a b : Nat} (h : 2 ^ a ≤ 2 ^ b) : a ≤ b := by
  by_contra hc
  push_neg at hc
  have h2 : 2 ^ (b + 1) ≤ 2 ^ a := Nat.pow_le_pow_right (by norm_num) (by omega)
  have h3 : 2 ^ (b + 1) = 2 * 2 ^ b := by rw [pow_succ]; ring
  have h4 : 0 < 2 ^ b := Nat.pos_pow_of_pos _ (by norm_num)
  omega

theorem tag_full_lt (h : Nat) : Tag.full h < 0x80 := by
  have h1 : h % 2 ^ 64 < 2 ^ 64 := Nat.mod_lt _ (by norm_num)
  have h2 : h % 2 ^ 64 / 2 ^ 57 < 0x80 := by
    rw [Nat.div_lt_iff_lt_mul (by norm_num : (0 : Nat) < 2 ^ 57)]
    calc h % 2 ^ 64 < 2 ^ 64 := h1
      _ ≤ 0x80 * 2 ^ 57 := by norm_num
  unfold Tag.full U64
  exact h2

theorem isFull_tag_full (h : Nat) : Tag.isFull (Tag.full h) = true := by
  unfold Tag.isFull
  rw [decide_eq_true_eq]
  exact tag_full_lt h

theorem and_two_pow_sub_one (x n : Nat) : x &&& (2 ^ n - 1) = x % 2 ^ n := by
  have h := and_two_pow_sub_two_pow x n 0 (Nat.zero_le n)
  simpa using h

theorem aligned_home (x n w : Nat) (hw : w ≤ n) :
    2 ^ w ∣ (x &&& (2 ^ n - 2 ^ w)) ∧ (x &&& (2 ^ n - 2 ^ w)) + 2 ^ w ≤ 2 ^ n := by
  rw [and_two_pow_sub_two_pow x n w hw]
  set m := x / 2 ^ w % 2 ^ (n - w) with hm
  have hmlt : m < 2 ^ (n - w) := Nat.mod_lt _ (Nat.pos_pow_of_pos _ (by norm_num))
  have hNW : 2 ^ (n - w) * 2 ^ w = 2 ^ n := by rw [← pow_add, Nat.sub_add_cancel hw]
  refine ⟨⟨m, Nat.mul_comm _ _⟩, ?_⟩
  have h1 : (m + 1) * 2 ^ w ≤ 2 ^ (n - w) * 2 ^ w := Nat.mul_le_mul_right _ (by omega)
  have h2 : (m + 1) * 2 ^ w = m * 2 ^ w + 2 ^ w := by ring
  omega

theorem blockOf_add (W pos off : Nat) (hW : 0 < W) (hdvd : W ∣ pos) (hoff : off < W) :
    blockOf W (pos + off) = pos := by
  obtain ⟨a, ha⟩ := hdvd
  subst ha
  unfold blockOf
  rw [Nat.mul_comm W a, Nat.add_comm, Nat.add_mul_div_right _ _ hW,
    Nat.div_eq_of_lt hoff, Nat.zero_add]

theorem zip_set_right {α β : Type} (l1 : List α) (l2 : List β) (i : Nat) (b : β) (d : α)
    (hi : i < l1.length) :
    l1.zip (l2.set i b) = (l1.zip l2).set i (l1.getD i d, b) := by
  have h1 : l1.set i (l1.getD i d) = l1 := by
    apply List.ext_getElem
    · simp
    · intro j hA hB
      rcases eq_or_ne j i with rfl | hne
      · rw [List.getElem_set_self, List.getD_eq_getElem _ _ hi]
      · rw [List.getElem_set_ne hne.symm]
  conv_lhs => rw [← h1]
  exact zip_set_both ..

theorem countP_le_countP {α : Type} (p q : α → Bool) :
    ∀ l : List α, (∀ x ∈ l, p x = true → q x = true) → l.countP p ≤ l.countP q := by
  intro l
  induction l with
  | nil => intro h; simp
  | cons a as ih =>
    intro h
    rw [List.countP_cons, List.countP_cons]
    have h1 := ih fun x hx => h x (List.mem_cons_of_mem _ hx)
    by_cases hp : p a = true
    · have hq := h a (by simp) hp
      rw [hp, hq]
      omega
    · have hp2 : (if p a = true then 1 else 0) = 0 := by
        rw [if_neg hp]
      rw [hp2]
      have : (0 : Nat) ≤ if q a = true then 1 else 0 := Nat.zero_le _
      omega

theorem present_iff_exists (t : Table V) (h1 : t.ctrl.length = t.numBuckets)
    (h2 : t.slots.length = t.numBuckets) (k : Nat) :
    present t k ↔ ∃ i < t.numBuckets, Tag.isFull (ctrlAt t i) ∧ keyAt t i = k := by
  unfold present keyCount
  rw [List.countP_pos]
  constructor
  · rintro ⟨c, hc, hp⟩
    rcases List.getElem_of_mem hc with ⟨i, hi, hgi⟩
    have hiN : i < t.numBuckets := by
      have := cells_length t h1 h2
      omega
    have hcell := cells_getElem t i h1 h2 hiN
    rw [List.getD_eq_getElem _ _ hi, hgi] at hcell
    rw [hcell] at hp
    unfold liveCell at hp
    rw [Bool.and_eq_true, beq_iff_eq] at hp
    exact ⟨i, hiN, hp.1, hp.2⟩
  · rintro ⟨i, hiN, hf, hk⟩
    have hi : i < (cells t).length := by
      have := cells_length t h1 h2
      omega
    refine ⟨(cells t)[i], List.getElem_mem hi, ?_⟩
    have hcell := cells_getElem t i h1 h2 hiN
    rw [List.getD_eq_getElem _ _ hi] at hcell
    rw [hcell]
    unfold liveCell
    rw [Bool.and_eq_true, beq_iff_eq]
    exact ⟨hf, hk⟩

theorem findKeyHit_none_of_absent (t : Table V) (h1 : t.ctrl.length = t.numBuckets)
    (h2 : t.slots.length = t.numBuckets) (hpow : ∃ n, t.numBuckets = 2 ^ n)
    (k pos : Nat) (habs : ¬ present t k) :
    findKeyHit t pos (Tag.full (foldHashFast k t.seed)) k = none := by
  rw [findKeyHit_eq_none_iff]
  intro bit hbit htag hkey
  have hfl := tag_full_lt (foldHashFast k t.seed)
  have hlt : pos + bit < t.numBuckets := by
    by_contra hge
    push_neg at hge
    have hdef : ctrlAt t (pos + bit) = Tag.EMPTY := by
      unfold ctrlAt
      apply List.getD_eq_default
      omega
    rw [htag] at hdef
    unfold Tag.EMPTY at hdef
    omega
  obtain ⟨n, hn⟩ := hpow
  have hmask : (pos + bit) &&& (t.numBuckets - 1) = pos + bit := by
    rw [hn, and_two_pow_sub_one, Nat.mod_eq_of_lt (by rw [← hn]; exact hlt)]
  rw [hmask] at hkey
  apply habs
  exact (present_iff_exists t h1 h2 k).mpr
    ⟨pos + bit, hlt, by rw [htag]; exact isFull_tag_full _, hkey⟩

theorem findKeyHit_some_props (t : Table V) (n : Nat) (hn : t.numBuckets = 2 ^ n)
    (h1 : t.ctrl.length = t.numBuckets) {pos tag k j : Nat} (htlt : tag < 0xFF)
    (h : findKeyHit t pos tag k = some j) :
    j < t.numBuckets ∧ ctrlAt t j = tag ∧ keyAt t j = k := by
  rcases findKeyHit_eq_some h with ⟨bit, hbit, htag, hj, hk⟩
  have hlt : pos + bit < t.numBuckets := by
    by_contra hge
    push_neg at hge
    have hdef : ctrlAt t (pos + bit) = Tag.EMPTY := by
      unfold ctrlAt
      apply List.getD_eq_default
      omega
    rw [htag] at hdef
    unfold Tag.EMPTY at hdef
    omega
  have hmask : (pos + bit) &&& (t.numBuckets - 1) = pos + bit := by
    rw [hn, and_two_pow_sub_one, Nat.mod_eq_of_lt (by rw [← hn]; exact hlt)]
  rw [hmask] at hj
  subst hj
  exact ⟨hlt, htag, hk⟩

theorem findKeyHit_at_home (t : Table V) (n w : Nat)
    (hn : t.numBuckets = 2 ^ n) (hwt : t.W = 2 ^ w) (hwn : w ≤ n)
    (h1 : t.ctrl.length = t.numBuckets) (h2 : t.slots.length = t.numBuckets)
    (hu : ∀ k2, keyCount t k2 ≤ 1) {k idx : Nat} (hidxN : idx < t.numBuckets)
    (hfull : ctrlAt t idx = Tag.full (foldHashFast k t.seed))
    (hkey : keyAt t idx = k) {pos : Nat} (hb : blockOf t.W idx = pos) :
    findKeyHit t pos (Tag.full (foldHashFast k t.seed)) k = some idx := by
  have hW : 0 < t.W := by rw [hwt]; exact Nat.pos_pow_of_pos _ (by norm_num)
  have hsplit : idx = pos + idx % t.W := by
    have hdm := Nat.div_add_mod idx t.W
    have hcomm : t.W * (idx / t.W) = idx / t.W * t.W := Nat.mul_comm ..
    unfold blockOf at hb
    omega
  have hbit : idx % t.W < t.W := Nat.mod_lt _ hW
  have hmask : (pos + idx % t.W) &&& (t.numBuckets - 1) = idx := by
    rw [← hsplit, hn, and_two_pow_sub_one, Nat.mod_eq_of_lt (by rw [← hn]; exact hidxN)]
  rcases @findKeyHit_isSome V t pos (Tag.full (foldHashFast k t.seed)) k (idx % t.W) hbit
    (by rw [← hsplit]; exact hfull) (by rw [hmask]; exact hkey) with ⟨j, hj, hjk⟩
  rcases findKeyHit_some_props t n hn h1
    (by have := tag_full_lt (foldHashFast k t.seed); omega) hj with ⟨hjN, hjc, hjk2⟩
  rw [hj]
  have hji : j = idx := unique_index t hu h1 h2 hjN hidxN
    (by rw [hjc]; exact isFull_tag_full _) (by rw [hfull]; exact isFull_tag_full _) hjk2 hkey
  rw [hji]

theorem get_eq_match (t : Table V) (k : Nat) :
    get t k =
      match findKeyHit t (homePos0 t k) (Tag.full (foldHashFast k t.seed)) k with
      | some idx => some (slotAt t idx).2
      | none =>
        match findKeyHit t (homePos1 t k) (Tag.full (foldHashFast k t.seed)) k with
        | some idx => some (slotAt t idx).2
        | none => none := by
  show getGo t k (Tag.full (foldHashFast k t.seed)) 2 false (foldHashFast k t.seed) = _
  rw [getGo]
  rw [show foldHashFast k t.seed &&& (t.numBuckets - t.W) = homePos0 t k from rfl]
  rcases findKeyHit t (homePos0 t k) (Tag.full (foldHashFast k t.seed)) k with _ | idx
  · rw [getGo]
    rw [show (foldHashFast k t.seed ^^^ scramble_tag (Tag.full (foldHashFast k t.seed))) &&&
        (t.numBuckets - t.W) = homePos1 t k from rfl]
    rcases findKeyHit t (homePos1 t k) (Tag.full (foldHashFast k t.seed)) k with _ | idx <;> rfl
  · rfl

theorem get_of_unique (t : Table V) (n w : Nat)
    (hn : t.numBuckets = 2 ^ n) (hwt : t.W = 2 ^ w) (hwn : w ≤ n)
    (h1 : t.ctrl.length = t.numBuckets) (h2 : t.slots.length = t.numBuckets)
    (hu : ∀ k2, keyCount t k2 ≤ 1) (k idx : Nat) (hidxN : idx < t.numBuckets)
    (hfull : ctrlAt t idx = Tag.full (foldHashFast k t.seed))
    (hkey : keyAt t idx = k)
    (hblock : blockOf t.W idx = homePos0 t k ∨ blockOf t.W idx = homePos1 t k) :
    get t k = some (slotAt t idx).2 := by
  rw [get_eq_match]
  rcases hblock with hb | hb
  · rw [findKeyHit_at_home t n w hn hwt hwn h1 h2 hu hidxN hfull hkey hb]
  · rcases hfk0 : findKeyHit t (homePos0 t k) (Tag.full (foldHashFast k t.seed)) k
      with _ | j
    · rw [findKeyHit_at_home t n w hn hwt hwn h1 h2 hu hidxN hfull hkey hb]
    · rcases findKeyHit_some_props t n hn h1
        (by have := tag_full_lt (foldHashFast k t.seed); omega) hfk0 with ⟨hjN, hjc, hjk⟩
      have hji : j = idx := unique_index t hu h1 h2 hjN hidxN
        (by rw [hjc]; exact isFull_tag_full _) (by rw [hfull]; exact isFull_tag_full _)
        hjk hkey
      show some (slotAt t j).2 = some (slotAt t idx).2
      rw [hji]

theorem get_none_of_absent (t : Table V) (n : Nat) (hn : t.numBuckets = 2 ^ n)
    (h1 : t.ctrl.length = t.numBuckets) (h2 : t.slots.length = t.numBuckets)
    (k : Nat) (habs : ¬ present t k) : get t k = none := by
  rw [get_eq_match,
    findKeyHit_none_of_absent t h1 h2 ⟨n, hn⟩ k (homePos0 t k) habs,
    findKeyHit_none_of_absent t h1 h2 ⟨n, hn⟩ k (homePos1 t k) habs]

theorem keyCount_withCapacity (V : Type) (W cap seed k : Nat) :
    keyCount (withCapacity V W cap seed) k = 0 := by
  unfold keyCount
  rw [List.countP_eq_zero]
  rintro ⟨c1, c2⟩ hc
  have h1 : c1 ∈ (withCapacity V W cap seed).ctrl := (List.of_mem_zip hc).1
  unfold withCapacity at h1
  have h2 := List.eq_of_mem_replicate h1
  unfold liveCell
  rw [h2]
  simp [Tag.isFull, Tag.EMPTY]

theorem unique_of_full_count_le_one (t : Table V)
    (h : ((cells t).countP fun c => Tag.isFull c.1) ≤ 1) : ∀ k2, keyCount t k2 ≤ 1 := by
  intro k2
  refine le_trans ?_ h
  unfold keyCount
  apply countP_le_countP
  intro c _ hc
  unfold liveCell at hc
  exact (Bool.and_eq_true ..).mp hc |>.1

theorem bfsGo_error_msg (t : Table V) (amask : Nat) :
    ∀ fuel readPos queue msg, bfsGo t amask fuel readPos queue = Except.error msg →
      msg = rehashMsg := by
  intro fuel
  induction fuel with
  | zero =>
    intro readPos queue msg h
    rw [bfsGo_zero] at h
    exact (Except.error.inj h).symm
  | succ fuel ih =>
    intro readPos queue msg h
    rw [bfsGo_succ] at h
    by_cases hg : BFS_MAX t.W ≤ readPos * t.W + 2
    · rw [if_pos hg] at h
      exact (Except.error.inj h).symm
    · rw [if_neg hg] at h
      revert h
      rcases hexp : expandChildren t amask (queue.getD readPos 0) (readPos * t.W + 2)
          (List.range t.W) queue with p | q2
      · rcases p with ⟨pi, bi⟩
        intro h
        exact Except.noConfusion h
      · intro h
        exact ih _ _ _ h

theorem fresh_install_spec (t : Table V) (n w : Nat)
    (hn : t.numBuckets = 2 ^ n) (hwt : t.W = 2 ^ w) (hwn : w ≤ n)
    (hu : ∀ k2, keyCount t k2 ≤ 1) (k : Nat) (hkc0 : keyCount t k = 0)
    (v : V) (C : List Nat) (S : List (Nat × Option V)) (i : Nat)
    (hCl : C.length = t.numBuckets) (hSl : S.length = t.numBuckets)
    (hiN : i < t.numBuckets) (dead : Nat × Nat × Option V)
    (hdead : Tag.isFull dead.1 = false)
    (hmset : ((C.zip S : List (Nat × Nat × Option V)) : Multiset (Nat × Nat × Option V)) +
        {dead} =
      (cells t : Multiset (Nat × Nat × Option V)) +
        {(C.getD i Tag.EMPTY, S.getD i (0, none))})
    (hblock : blockOf t.W i = homePos0 t k ∨ blockOf t.W i = homePos1 t k) :
    ∀ t2, t2 = { t with
        ctrl := C.set i (Tag.full (foldHashFast k t.seed))
        slots := S.set i (k, some v)
        items := t.items + 1 } →
      t2.W = t.W ∧ t2.numBuckets = t.numBuckets ∧ t2.seed = t.seed ∧
      t2.items = t.items + 1 ∧
      t2.ctrl.length = t.numBuckets ∧ t2.slots.length = t.numBuckets ∧
      ctrlAt t2 i = Tag.full (foldHashFast k t.seed) ∧
      keyAt t2 i = k ∧ (slotAt t2 i).2 = some v ∧
      (∀ k2, keyCount t2 k2 = keyCount t k2 + if k2 = k then 1 else 0) ∧
      (∀ k2 v2, k2 ≠ k → (livePairMem t2 k2 v2 ↔ livePairMem t k2 v2)) ∧
      get t2 k = some (some v) := by
  intro t2 ht2
  have hW : 0 < t.W := by rw [hwt]; exact Nat.pos_pow_of_pos _ (by norm_num)
  have hW2 : t2.W = t.W := by rw [ht2]
  have hN2 : t2.numBuckets = t.numBuckets := by rw [ht2]
  have hseed2 : t2.seed = t.seed := by rw [ht2]
  have hitems2 : t2.items = t.items + 1 := by rw [ht2]
  have hctrl2eq : t2.ctrl = C.set i (Tag.full (foldHashFast k t.seed)) := by rw [ht2]
  have hslots2eq : t2.slots = S.set i (k, some v) := by rw [ht2]
  have hclen2 : t2.ctrl.length = t.numBuckets := by
    rw [hctrl2eq, List.length_set, hCl]
  have hslen2 : t2.slots.length = t.numBuckets := by
    rw [hslots2eq, List.length_set, hSl]
  have hctrlAt2 : ctrlAt t2 i = Tag.full (foldHashFast k t.seed) := by
    unfold ctrlAt
    rw [hctrl2eq]
    exact getD_set_self _ _ _ _ (by omega)
  have hkeyAt2 : keyAt t2 i = k := by
    unfold keyAt slotAt
    rw [hslots2eq, getD_set_self _ _ _ _ (by omega)]
  have hval2 : (slotAt t2 i).2 = some v := by
    unfold slotAt
    rw [hslots2eq, getD_set_self _ _ _ _ (by omega)]
  have hcells2 : cells t2 = (C.zip S).set i (Tag.full (foldHashFast k t.seed), k, some v) := by
    unfold cells
    rw [hctrl2eq, hslots2eq, zip_set_both]
  have hiz : i < (C.zip S).length := by
    rw [List.length_zip, hCl, hSl, Nat.min_self]
    exact hiN
  have hold : (C.zip S)[i] = (C.getD i Tag.EMPTY, S.getD i (0, none)) := by
    rw [List.getElem_zip, List.getD_eq_getElem _ _ (by omega),
      List.getD_eq_getElem _ _ (by omega)]
  have hmset2 : (cells t2 : Multiset (Nat × Nat × Option V)) +
      {(C.getD i Tag.EMPTY, S.getD i (0, none))} =
      ((C.zip S : List (Nat × Nat × Option V)) : Multiset (Nat × Nat × Option V)) +
      {(Tag.full (foldHashFast k t.seed), k, some v)} := by
    rw [hcells2, ← hold]
    exact multiset_set_add (C.zip S) i (Tag.full (foldHashFast k t.seed), k, some v) hiz
  have hcomb : (cells t2 : Multiset (Nat × Nat × Option V)) + {dead} =
      (cells t : Multiset (Nat × Nat × Option V)) +
      {(Tag.full (foldHashFast k t.seed), k, some v)} := by
    have hstep : ((cells t2 : Multiset (Nat × Nat × Option V)) + {dead}) +
        {(C.getD i Tag.EMPTY, S.getD i (0, none))} =
        ((cells t : Multiset (Nat × Nat × Option V)) +
          {(Tag.full (foldHashFast k t.seed), k, some v)}) +
        {(C.getD i Tag.EMPTY, S.getD i (0, none))} := by
      calc ((cells t2 : Multiset (Nat × Nat × Option V)) + {dead}) +
          {(C.getD i Tag.EMPTY, S.getD i (0, none))}
          = ((cells t2 : Multiset (Nat × Nat × Option V)) +
              {(C.getD i Tag.EMPTY, S.getD i (0, none))}) + {dead} := by
            rw [add_right_comm]
        _ = (((C.zip S : List (Nat × Nat × Option V)) : Multiset (Nat × Nat × Option V)) +
              {(Tag.full (foldHashFast k t.seed), k, some v)}) + {dead} := by rw [hmset2]
        _ = (((C.zip S : List (Nat × Nat × Option V)) : Multiset (Nat × Nat × Option V)) +
              {dead}) + {(Tag.full (foldHashFast k t.seed), k, some v)} := by
            rw [add_right_comm]
        _ = ((cells t : Multiset (Nat × Nat × Option V)) +
              {(C.getD i Tag.EMPTY, S.getD i (0, none))}) +
              {(Tag.full (foldHashFast k t.seed), k, some v)} := by rw [hmset]
        _ = ((cells t : Multiset (Nat × Nat × Option V)) +
              {(Tag.full (foldHashFast k t.seed), k, some v)}) +
              {(C.getD i Tag.EMPTY, S.getD i (0, none))} := by rw [add_right_comm]
    exact add_right_cancel hstep
  have hcntAll : ∀ k2, keyCount t2 k2 = keyCount t k2 + if k2 = k then 1 else 0 := by
    intro k2
    have hcnt := countP_eq_of_multiset_add (liveCell k2) (cells t2) (cells t) dead
      (Tag.full (foldHashFast k t.seed), k, some v) hcomb
    have hld : liveCell k2 dead = false := by
      unfold liveCell
      rw [hdead]
      rfl
    have hln : liveCell k2 (Tag.full (foldHashFast k t.seed), k, some v) = (k == k2) := by
      unfold liveCell
      rw [isFull_tag_full, Bool.true_and]
    rw [hld, hln] at hcnt
    have hif0 : (if (false : Bool) = true then 1 else 0) = 0 := rfl
    have hif1 : (if (true : Bool) = true then 1 else 0) = 1 := rfl
    unfold keyCount
    by_cases hk2 : k2 = k
    · subst hk2
      rw [beq_self_eq_true, hif0, hif1] at hcnt
      rw [if_pos rfl]
      omega
    · have hne : (k == k2) = false := beq_eq_false_iff_ne.mpr fun h => hk2 h.symm
      rw [hne, hif0] at hcnt
      rw [if_neg hk2]
      omega
  have hmemAll : ∀ k2 v2, k2 ≠ k → (livePairMem t2 k2 v2 ↔ livePairMem t k2 v2) := by
    intro k2 v2 hk2
    unfold livePairMem
    refine mem_iff_of_multiset_add hcomb ?_ ?_
    · rintro ⟨hf, -, -⟩
      rw [hdead] at hf
      exact Bool.false_ne_true hf
    · rintro ⟨-, hkk, -⟩
      exact hk2 hkk.symm
  have hu2 : ∀ k2, keyCount t2 k2 ≤ 1 := by
    intro k2
    rw [hcntAll k2]
    by_cases hk2 : k2 = k
    · subst hk2
      rw [if_pos rfl, hkc0]
    · rw [if_neg hk2]
      have := hu k2
      omega
  have hhp0 : homePos0 t2 k = homePos0 t k := by
    unfold homePos0
    rw [hseed2, hN2, hW2]
  have hhp1 : homePos1 t2 k = homePos1 t k := by
    unfold homePos1
    rw [hseed2, hN2, hW2]
  have hblock2 : blockOf t2.W i = homePos0 t2 k ∨ blockOf t2.W i = homePos1 t2 k := by
    rw [hW2, hhp0, hhp1]
    exact hblock
  have hget := get_of_unique t2 n w (hN2.trans hn) (hW2.trans hwt) hwn
    (hclen2.trans hN2.symm) (hslen2.trans hN2.symm) hu2 k i (by rw [hN2]; exact hiN)
    (by rw [hseed2]; exact hctrlAt2) hkeyAt2 hblock2
  rw [hval2] at hget
  exact ⟨hW2, hN2, hseed2, hitems2, hclen2, hslen2, hctrlAt2, hkeyAt2, hval2, hcntAll,
    hmemAll, hget⟩

theorem overwrite_value_spec (t : Table V) (n w : Nat)
    (hn : t.numBuckets = 2 ^ n) (hwt : t.W = 2 ^ w) (hwn : w ≤ n)
    (h1 : t.ctrl.length = t.numBuckets) (h2 : t.slots.length = t.numBuckets)
    (hu : ∀ k2, keyCount t k2 ≤ 1) (k : Nat) (v : V) (i : Nat) (hiN : i < t.numBuckets)
    (hfull : ctrlAt t i = Tag.full (foldHashFast k t.seed)) (hkey : keyAt t i = k)
    (hblock : blockOf t.W i = homePos0 t k ∨ blockOf t.W i = homePos1 t k) :
    ∀ t2, t2 = { t with slots := t.slots.set i (keyAt t i, some v) } →
      t2.items = t.items ∧
      (∀ k2, keyCount t2 k2 = keyCount t k2) ∧
      (∀ k2 v2, k2 ≠ k → (livePairMem t2 k2 v2 ↔ livePairMem t k2 v2)) ∧
      get t2 k = some (some v) := by
  intro t2 ht2
  have hW2 : t2.W = t.W := by rw [ht2]
  have hN2 : t2.numBuckets = t.numBuckets := by rw [ht2]
  have hseed2 : t2.seed = t.seed := by rw [ht2]
  have hitems2 : t2.items = t.items := by rw [ht2]
  have hctrl2eq : t2.ctrl = t.ctrl := by rw [ht2]
  have hslots2eq : t2.slots = t.slots.set i (keyAt t i, some v) := by rw [ht2]
  have hclen2 : t2.ctrl.length = t.numBuckets := by rw [hctrl2eq, h1]
  have hslen2 : t2.slots.length = t.numBuckets := by
    rw [hslots2eq, List.length_set, h2]
  have hctrlAt2 : ctrlAt t2 i = Tag.full (foldHashFast k t.seed) := by
    unfold ctrlAt
    rw [hctrl2eq]
    exact hfull
  have hkeyAt2 : keyAt t2 i = k := by
    unfold keyAt slotAt
    rw [hslots2eq, getD_set_self _ _ _ _ (by omega)]
    exact hkey
  have hval2 : (slotAt t2 i).2 = some v := by
    unfold slotAt
    rw [hslots2eq, getD_set_self _ _ _ _ (by omega)]
  have hcells2 : cells t2 =
      (cells t).set i (t.ctrl.getD i Tag.EMPTY, keyAt t i, some v) := by
    unfold cells
    rw [hctrl2eq, hslots2eq]
    exact zip_set_right t.ctrl t.slots i (keyAt t i, some v) Tag.EMPTY (by omega)
  have hic : i < (cells t).length := by
    rw [cells_length t h1 h2]
    exact hiN
  have hold : (cells t)[i] = (ctrlAt t i, slotAt t i) := by
    have := cells_getElem t i h1 h2 hiN
    rw [List.getD_eq_getElem _ _ hic] at this
    exact this
  have hmset2 : (cells t2 : Multiset (Nat × Nat × Option V)) + {(ctrlAt t i, slotAt t i)} =
      (cells t : Multiset (Nat × Nat × Option V)) +
      {(t.ctrl.getD i Tag.EMPTY, keyAt t i, some v)} := by
    rw [hcells2, ← hold]
    exact multiset_set_add (cells t) i (t.ctrl.getD i Tag.EMPTY, keyAt t i, some v) hic
  have hlive_eq : ∀ k2, liveCell k2 (ctrlAt t i, slotAt t i) =
      liveCell k2 (t.ctrl.getD i Tag.EMPTY, keyAt t i, some v) := by
    intro k2
    unfold liveCell
    rfl
  have hcntAll : ∀ k2, keyCount t2 k2 = keyCount t k2 := by
    intro k2
    have hcnt := countP_eq_of_multiset_add (liveCell k2) (cells t2) (cells t)
      (ctrlAt t i, slotAt t i) (t.ctrl.getD i Tag.EMPTY, keyAt t i, some v) hmset2
    rw [hlive_eq k2] at hcnt
    unfold keyCount
    omega
  have hmemAll : ∀ k2 v2, k2 ≠ k → (livePairMem t2 k2 v2 ↔ livePairMem t k2 v2) := by
    intro k2 v2 hk2
    unfold livePairMem
    refine mem_iff_of_multiset_add hmset2 ?_ ?_
    · rintro ⟨-, hkk, -⟩
      apply hk2
      rw [← hkk]
      exact hkey
    · rintro ⟨-, hkk, -⟩
      apply hk2
      rw [← hkk]
      exact hkey
  have hu2 : ∀ k2, keyCount t2 k2 ≤ 1 := by
    intro k2
    rw [hcntAll k2]
    exact hu k2
  have hhp0 : homePos0 t2 k = homePos0 t k := by
    unfold homePos0
    rw [hseed2, hN2, hW2]
  have hhp1 : homePos1 t2 k = homePos1 t k := by
    unfold homePos1
    rw [hseed2, hN2, hW2]
  have hblock2 : blockOf t2.W i = homePos0 t2 k ∨ blockOf t2.W i = homePos1 t2 k := by
    rw [hW2, hhp0, hhp1]
    exact hblock
  have hget := get_of_unique t2 n w (hN2.trans hn) (hW2.trans hwt) hwn
    (hclen2.trans hN2.symm) (hslen2.trans hN2.symm) hu2 k i (by rw [hN2]; exact hiN)
    (by rw [hseed2]; exact hctrlAt2) hkeyAt2 hblock2
  rw [hval2] at hget
  exact ⟨hitems2, hcntAll, hmemAll, hget⟩

theorem insert_eq_match (t : Table V) (k : Nat) (v : V) :
    insert t k v =
      match findKeyHit t (homePos0 t k) (Tag.full (foldHashFast k t.seed)) k with
      | some idx =>
        Except.ok ({ t with slots := t.slots.set idx (keyAt t idx, some v) }, false, idx)
      | none =>
      match findKeyHit t (homePos1 t k) (Tag.full (foldHashFast k t.seed)) k with
      | some idx =>
        Except.ok ({ t with slots := t.slots.set idx (keyAt t idx, some v) }, false, idx)
      | none =>
      match firstEmptyOffset t (homePos0 t k) with
      | some e =>
        Except.ok
          ({ t with
              ctrl := t.ctrl.set ((homePos0 t k + e) &&& (t.numBuckets - 1))
                (Tag.full (foldHashFast k t.seed))
              slots := t.slots.set ((homePos0 t k + e) &&& (t.numBuckets - 1)) (k, some v)
              items := t.items + 1 }, true, (homePos0 t k + e) &&& (t.numBuckets - 1))
      | none =>
      match firstEmptyOffset t (homePos1 t k) with
      | some e =>
        Except.ok
          ({ t with
              ctrl := t.ctrl.set ((homePos1 t k + e) &&& (t.numBuckets - 1))
                (Tag.full (foldHashFast k t.seed))
              slots := t.slots.set ((homePos1 t k + e) &&& (t.numBuckets - 1)) (k, some v)
              items := t.items + 1 }, true, (homePos1 t k + e) &&& (t.numBuckets - 1))
      | none =>
      match bfsGo t (t.numBuckets - t.W) (BFS_MAX t.W + 2) 0 [homePos0 t k, homePos1 t k] with
      | Except.error msg => Except.error msg
      | Except.ok (pathIndex, bucketIndex, queue) =>
        Except.ok
          ({ t with
              ctrl := (applyPathGo t.W queue (pathIndex + 1) pathIndex bucketIndex t.ctrl
                  t.slots).2.1.set
                (applyPathGo t.W queue (pathIndex + 1) pathIndex bucketIndex t.ctrl
                  t.slots).1
                (Tag.full (foldHashFast k t.seed))
              slots := (applyPathGo t.W queue (pathIndex + 1) pathIndex bucketIndex t.ctrl
                  t.slots).2.2.set
                (applyPathGo t.W queue (pathIndex + 1) pathIndex bucketIndex t.ctrl
                  t.slots).1
                (k, some v)
              items := t.items + 1 },
            true,
            (applyPathGo t.W queue (pathIndex + 1) pathIndex bucketIndex t.ctrl
              t.slots).1) := rfl

theorem insert_present_spec (t : Table V) (k : Nat) (v : V) (hwf : WF t)
    (hpres : present t k) :
    ∃ t2 idx, insert t k v = Except.ok (t2, false, idx) ∧
      t2.items = t.items ∧
      (∀ k2, keyCount t2 k2 = keyCount t k2) ∧
      (∀ k2 v2, k2 ≠ k → (livePairMem t2 k2 v2 ↔ livePairMem t k2 v2)) ∧
      get t2 k = some (some v) := by
  obtain ⟨n, hn⟩ := hwf.pow2N
  obtain ⟨w, hwt⟩ := hwf.pow2W
  have hwn : w ≤ n := pow2_le_exponents (by rw [← hn, ← hwt]; exact hwf.WleN)
  rcases (present_iff_exists t hwf.ctrlLen hwf.slotsLen k).mp hpres with ⟨i, hiN, hf, hk⟩
  have hpl := hwf.placed i hiN hf
  have hfull : ctrlAt t i = Tag.full (foldHashFast k t.seed) := by rw [hpl.1, hk]
  have hblock : blockOf t.W i = homePos0 t k ∨ blockOf t.W i = homePos1 t k := by
    rw [← hk]
    exact hpl.2
  have hmain := overwrite_value_spec t n w hn hwt hwn hwf.ctrlLen hwf.slotsLen hwf.unique
    k v i hiN hfull hk hblock _ rfl
  refine ⟨{ t with slots := t.slots.set i (keyAt t i, some v) }, i, ?_, hmain⟩
  rw [insert_eq_match]
  rcases hfk0 : findKeyHit t (homePos0 t k) (Tag.full (foldHashFast k t.seed)) k with _ | j
  · rcases hblock with hb | hb
    · exact absurd (findKeyHit_at_home t n w hn hwt hwn hwf.ctrlLen hwf.slotsLen hwf.unique
        hiN hfull hk hb) (by rw [hfk0]; simp)
    · rw [findKeyHit_at_home t n w hn hwt hwn hwf.ctrlLen hwf.slotsLen hwf.unique
        hiN hfull hk hb]
  · rcases findKeyHit_some_props t n hn hwf.ctrlLen
      (by have := tag_full_lt (foldHashFast k t.seed); omega) hfk0 with ⟨hjN, hjc, hjk⟩
    have hji : j = i := unique_index t hwf.unique hwf.ctrlLen hwf.slotsLen hjN hiN
      (by rw [hjc]; exact isFull_tag_full _) hf hjk hk
    rw [hji]

theorem bfs_start_characterize (t : Table V) (n w : Nat)
    (hn : t.numBuckets = 2 ^ n) (hwt : t.W = 2 ^ w) (hwn : w ≤ n) (k : Nat)
    (he0 : firstEmptyOffset t (homePos0 t k) = none)
    (he1 : firstEmptyOffset t (homePos1 t k) = none) :
    (bfsGo t (t.numBuckets - t.W) (BFS_MAX t.W + 2) 0 [homePos0 t k, homePos1 t k] =
        Except.error rehashMsg ↔
      ∀ j, j < BFS_MAX t.W →
        firstEmptyOffset t
          (nodePos t (t.numBuckets - t.W) (homePos0 t k) (homePos1 t k) j) = none) ∧
    ∀ path bidx q2,
      bfsGo t (t.numBuckets - t.W) (BFS_MAX t.W + 2) 0 [homePos0 t k, homePos1 t k] =
          Except.ok (path, bidx, q2) →
      2 ≤ path ∧ path < BFS_MAX t.W ∧
      (∃ e, firstEmptyOffset t
          (nodePos t (t.numBuckets - t.W) (homePos0 t k) (homePos1 t k) path) = some e ∧
        bidx = nodePos t (t.numBuckets - t.W) (homePos0 t k) (homePos1 t k) path + e) ∧
      (∀ j, j < q2.length →
        q2.getD j 0 = nodePos t (t.numBuckets - t.W) (homePos0 t k) (homePos1 t k) j) ∧
      2 ≤ q2.length ∧
      (∀ j, 2 ^ w ∣ q2.getD j 0 ∧ q2.getD j 0 + 2 ^ w ≤ 2 ^ n) ∧
      2 ^ w ∣ nodePos t (t.numBuckets - t.W) (homePos0 t k) (homePos1 t k) path ∧
      nodePos t (t.numBuckets - t.W) (homePos0 t k) (homePos1 t k) path + 2 ^ w ≤ 2 ^ n := by
  have hmaskA : t.numBuckets - t.W = 2 ^ n - 2 ^ w := by rw [hn, hwt]
  have halign0 : 2 ^ w ∣ homePos0 t k ∧ homePos0 t k + 2 ^ w ≤ 2 ^ n := by
    unfold homePos0
    rw [hmaskA]
    exact aligned_home (foldHashFast k t.seed) n w hwn
  have halign1 : 2 ^ w ∣ homePos1 t k ∧ homePos1 t k + 2 ^ w ≤ 2 ^ n := by
    unfold homePos1
    rw [hmaskA]
    exact aligned_home _ n w hwn
  have hfuel : 2 * (1 + t.W + t.W * t.W) + 1 ≤ BFS_MAX t.W + 2 + 0 := by
    unfold BFS_MAX
    omega
  have hlenq : ([homePos0 t k, homePos1 t k] : List Nat).length = 2 + 0 * t.W := by simp
  have hnodeq : ∀ j, j < ([homePos0 t k, homePos1 t k] : List Nat).length →
      ([homePos0 t k, homePos1 t k] : List Nat).getD j 0 =
        nodePos t (t.numBuckets - t.W) (homePos0 t k) (homePos1 t k) j := by
    intro j hj
    simp at hj
    interval_cases j
    · rw [nodePos_zero]
      rfl
    · rw [nodePos_one]
      rfl
  have hemptyq : ∀ j, j < ([homePos0 t k, homePos1 t k] : List Nat).length →
      firstEmptyOffset t (nodePos t (t.numBuckets - t.W) (homePos0 t k) (homePos1 t k) j)
        = none := by
    intro j hj
    simp at hj
    interval_cases j
    · rw [nodePos_zero]
      exact he0
    · rw [nodePos_one]
      exact he1
  have halignq : ∀ j, 2 ^ w ∣ ([homePos0 t k, homePos1 t k] : List Nat).getD j 0 ∧
      ([homePos0 t k, homePos1 t k] : List Nat).getD j 0 + 2 ^ w ≤ 2 ^ n := by
    intro j
    rcases j with _ | j
    · exact halign0
    rcases j with _ | j
    · exact halign1
    · refine ⟨dvd_zero _, ?_⟩
      show 0 + 2 ^ w ≤ 2 ^ n
      have := Nat.pow_le_pow_right (show 1 ≤ 2 by norm_num) hwn
      omega
  exact bfsGo_characterize t n w hn hwt hwn (homePos0 t k) (homePos1 t k) (BFS_MAX t.W + 2)
    0 [homePos0 t k, homePos1 t k] hfuel hlenq hnodeq hemptyq halignq

theorem insert_absent_spec (t : Table V) (k : Nat) (v : V) (hwf : WF t)
    (habs : ¬ present t k) :
    ∀ t2 flag idx, insert t k v = Except.ok (t2, flag, idx) →
      flag = true ∧
      t2.items = t.items + 1 ∧
      t2.numBuckets = t.numBuckets ∧
      t2.ctrl.length = t.numBuckets ∧ t2.slots.length = t.numBuckets ∧
      idx < t.numBuckets ∧
      ctrlAt t2 idx = Tag.full (foldHashFast k t.seed) ∧
      keyAt t2 idx = k ∧ (slotAt t2 idx).2 = some v ∧
      (∀ k2, keyCount t2 k2 = keyCount t k2 + if k2 = k then 1 else 0) ∧
      (∀ k2 v2, k2 ≠ k → (livePairMem t2 k2 v2 ↔ livePairMem t k2 v2)) ∧
      get t2 k = some (some v) := by
  obtain ⟨n, hn⟩ := hwf.pow2N
  obtain ⟨w, hwt⟩ := hwf.pow2W
  have hwn : w ≤ n := pow2_le_exponents (by rw [← hn, ← hwt]; exact hwf.WleN)
  have hW : 0 < t.W := by rw [hwt]; exact Nat.pos_pow_of_pos _ (by norm_num)
  have hkc0 : keyCount t k = 0 := by
    unfold present at habs
    omega
  have hfk0 := findKeyHit_none_of_absent t hwf.ctrlLen hwf.slotsLen ⟨n, hn⟩ k
    (homePos0 t k) habs
  have hfk1 := findKeyHit_none_of_absent t hwf.ctrlLen hwf.slotsLen ⟨n, hn⟩ k
    (homePos1 t k) habs
  have hmaskA : t.numBuckets - t.W = 2 ^ n - 2 ^ w := by rw [hn, hwt]
  have halign0 : 2 ^ w ∣ homePos0 t k ∧ homePos0 t k + 2 ^ w ≤ 2 ^ n := by
    unfold homePos0
    rw [hmaskA]
    exact aligned_home (foldHashFast k t.seed) n w hwn
  have halign1 : 2 ^ w ∣ homePos1 t k ∧ homePos1 t k + 2 ^ w ≤ 2 ^ n := by
    unfold homePos1
    rw [hmaskA]
    exact aligned_home _ n w hwn
  rw [insert_eq_match, hfk0, hfk1]
  rcases he0 : firstEmptyOffset t (homePos0 t k) with _ | e
  · rcases he1 : firstEmptyOffset t (homePos1 t k) with _ | e
    · -- BFS displacement path
      rcases hbfs : bfsGo t (t.numBuckets - t.W) (BFS_MAX t.W + 2) 0
          [homePos0 t k, homePos1 t k] with msg | trip
      · intro t2 flag idx hins
        exact absurd hins (fun hbad => Except.noConfusion hbad)
      · rcases trip with ⟨path, bidx, q2⟩
        have hchar := (bfs_start_characterize t n w hn hwt hwn k he0 he1).2 path bidx q2 hbfs
        obtain ⟨hpath2, hpathM, ⟨e2, hsome, hbidx⟩, hq2node, hq2len, hq2align, hpdvd,
          hpbound⟩ := hchar
        rcases firstEmptyOffset_some hsome with ⟨he2W, hec2⟩
        have hbidxN : bidx < t.numBuckets := by
          rw [hn, hbidx]
          rw [hwt] at he2W
          omega
        have hqle : ∀ j, q2.getD j 0 + t.W ≤ t.numBuckets := by
          intro j
          rw [hwt, hn]
          exact (hq2align j).2
        set r := applyPathGo t.W q2 (path + 1) path bidx t.ctrl t.slots with hrdef
        have hrspec := applyPathGo_spec t.W hW q2 t.numBuckets hqle (path + 1) path bidx
          t.ctrl t.slots r.1 r.2.1 r.2.2 (by rw [← hrdef]) (by omega) hwf.ctrlLen
          hwf.slotsLen hbidxN
        obtain ⟨hc2len, hs2len, hrootN, hmset1, hroot_lt2, hroot_ge2⟩ := hrspec
        obtain ⟨p2, hp2, off, hoff, hroot⟩ := hroot_ge2 hpath2
        intro t2 flag idx hins
        replace hins : Except.ok
            (({ t with
                ctrl := r.2.1.set r.1 (Tag.full (foldHashFast k t.seed))
                slots := r.2.2.set r.1 (k, some v)
                items := t.items + 1 } : Table V), true, r.1) =
            Except.ok (t2, flag, idx) := hins
        have hinj := Except.ok.inj hins
        obtain ⟨rfl, rfl, rfl⟩ : ({ t with
            ctrl := r.2.1.set r.1 (Tag.full (foldHashFast k t.seed))
            slots := r.2.2.set r.1 (k, some v)
            items := t.items + 1 } : Table V) = t2 ∧ (true : Bool) = flag ∧ r.1 = idx :=
          ⟨congrArg Prod.fst hinj, congrArg (fun p => p.2.1) hinj,
            congrArg (fun p => p.2.2) hinj⟩
        have hdead : Tag.isFull (t.ctrl.getD bidx Tag.EMPTY,
            t.slots.getD bidx (0, none)).1 = false := by
          show Tag.isFull (ctrlAt t bidx) = false
          rw [hbidx, hec2]
          rfl
        have hblockr : blockOf t.W r.1 = homePos0 t k ∨ blockOf t.W r.1 = homePos1 t k := by
          have hq2p2 := hq2node p2 (by omega)
          have hdvdp : t.W ∣ q2.getD p2 0 := by
            rw [hwt]
            exact (hq2align p2).1
          have hb := blockOf_add t.W (q2.getD p2 0) off hW hdvdp hoff
          rw [hroot, hb, hq2p2]
          rcases p2 with _ | p2
          · left
            rw [nodePos_zero]
          · rcases p2 with _ | p2
            · right
              rw [nodePos_one]
            · exact absurd hp2 (by omega)
        have hmain := fresh_install_spec t n w hn hwt hwn hwf.unique k hkc0 v r.2.1 r.2.2
          r.1 hc2len hs2len hrootN
          (t.ctrl.getD bidx Tag.EMPTY, t.slots.getD bidx (0, none)) hdead hmset1 hblockr
          _ rfl
        obtain ⟨hW2, hN2, hseed2, hitems2, hclen2, hslen2, hctrl2, hkey2, hval2, hcnt2,
          hmem2, hget2⟩ := hmain
        exact ⟨rfl, hitems2, hN2, hclen2, hslen2, hrootN, hctrl2, hkey2, hval2, hcnt2,
          hmem2, hget2⟩
    · -- direct insert into the second home group
      rcases firstEmptyOffset_some he1 with ⟨heW, hec⟩
      have hlt : homePos1 t k + e < t.numBuckets := by
        have hb2 := halign1.2
        rw [hwt] at heW
        rw [hn]
        omega
      have hi_eq : (homePos1 t k + e) &&& (t.numBuckets - 1) = homePos1 t k + e := by
        rw [hn, and_two_pow_sub_one, Nat.mod_eq_of_lt (by rw [← hn]; exact hlt)]
      intro t2 flag idx hins
      replace hins : Except.ok
          (({ t with
              ctrl := t.ctrl.set ((homePos1 t k + e) &&& (t.numBuckets - 1))
                (Tag.full (foldHashFast k t.seed))
              slots := t.slots.set ((homePos1 t k + e) &&& (t.numBuckets - 1)) (k, some v)
              items := t.items + 1 } : Table V), true,
            (homePos1 t k + e) &&& (t.numBuckets - 1)) =
          Except.ok (t2, flag, idx) := hins
      rw [hi_eq] at hins
      have hinj := Except.ok.inj hins
      obtain ⟨rfl, rfl, rfl⟩ : ({ t with
          ctrl := t.ctrl.set (homePos1 t k + e) (Tag.full (foldHashFast k t.seed))
          slots := t.slots.set (homePos1 t k + e) (k, some v)
          items := t.items + 1 } : Table V) = t2 ∧ (true : Bool) = flag ∧
          homePos1 t k + e = idx :=
        ⟨congrArg Prod.fst hinj, congrArg (fun p => p.2.1) hinj,
          congrArg (fun p => p.2.2) hinj⟩
      have hdead : Tag.isFull (t.ctrl.getD (homePos1 t k + e) Tag.EMPTY,
          t.slots.getD (homePos1 t k + e) (0, none)).1 = false := by
        show Tag.isFull (ctrlAt t (homePos1 t k + e)) = false
        rw [hec]
        rfl
      have hdvd : t.W ∣ homePos1 t k := by
        rw [hwt]
        exact halign1.1
      have hblock : blockOf t.W (homePos1 t k + e) = homePos1 t k :=
        blockOf_add t.W (homePos1 t k) e hW hdvd heW
      have hmain := fresh_install_spec t n w hn hwt hwn hwf.unique k hkc0 v t.ctrl t.slots
        (homePos1 t k + e) hwf.ctrlLen hwf.slotsLen hlt
        (t.ctrl.getD (homePos1 t k + e) Tag.EMPTY, t.slots.getD (homePos1 t k + e) (0, none))
        hdead rfl (Or.inr hblock) _ rfl
      obtain ⟨hW2, hN2, hseed2, hitems2, hclen2, hslen2, hctrl2, hkey2, hval2, hcnt2, hmem2,
        hget2⟩ := hmain
      exact ⟨rfl, hitems2, hN2, hclen2, hslen2, hlt, hctrl2, hkey2, hval2, hcnt2, hmem2,
        hget2⟩
  · -- direct insert into the first home group
    rcases firstEmptyOffset_some he0 with ⟨heW, hec⟩
    have hlt : homePos0 t k + e < t.numBuckets := by
      have hb2 := halign0.2
      rw [hwt] at heW
      rw [hn]
      omega
    have hi_eq : (homePos0 t k + e) &&& (t.numBuckets - 1) = homePos0 t k + e := by
      rw [hn, and_two_pow_sub_one, Nat.mod_eq_of_lt (by rw [← hn]; exact hlt)]
    intro t2 flag idx hins
    replace hins : Except.ok
        (({ t with
            ctrl := t.ctrl.set ((homePos0 t k + e) &&& (t.numBuckets - 1))
              (Tag.full (foldHashFast k t.seed))
            slots := t.slots.set ((homePos0 t k + e) &&& (t.numBuckets - 1)) (k, some v)
            items := t.items + 1 } : Table V), true,
          (homePos0 t k + e) &&& (t.numBuckets - 1)) =
        Except.ok (t2, flag, idx) := hins
    rw [hi_eq] at hins
    have hinj := Except.ok.inj hins
    obtain ⟨rfl, rfl, rfl⟩ : ({ t with
        ctrl := t.ctrl.set (homePos0 t k + e) (Tag.full (foldHashFast k t.seed))
        slots := t.slots.set (homePos0 t k + e) (k, some v)
        items := t.items + 1 } : Table V) = t2 ∧ (true : Bool) = flag ∧
        homePos0 t k + e = idx :=
      ⟨congrArg Prod.fst hinj, congrArg (fun p => p.2.1) hinj,
        congrArg (fun p => p.2.2) hinj⟩
    have hdead : Tag.isFull (t.ctrl.getD (homePos0 t k + e) Tag.EMPTY,
        t.slots.getD (homePos0 t k + e) (0, none)).1 = false := by
      show Tag.isFull (ctrlAt t (homePos0 t k + e)) = false
      rw [hec]
      rfl
    have hdvd : t.W ∣ homePos0 t k := by
      rw [hwt]
      exact halign0.1
    have hblock : blockOf t.W (homePos0 t k + e) = homePos0 t k :=
      blockOf_add t.W (homePos0 t k) e hW hdvd heW
    have hmain := fresh_install_spec t n w hn hwt hwn hwf.unique k hkc0 v t.ctrl t.slots
      (homePos0 t k + e) hwf.ctrlLen hwf.slotsLen hlt
      (t.ctrl.getD (homePos0 t k + e) Tag.EMPTY, t.slots.getD (homePos0 t k + e) (0, none))
      hdead rfl (Or.inl hblock) _ rfl
    obtain ⟨hW2, hN2, hseed2, hitems2, hclen2, hslen2, hctrl2, hkey2, hval2, hcnt2, hmem2,
      hget2⟩ := hmain
    exact ⟨rfl, hitems2, hN2, hclen2, hslen2, hlt, hctrl2, hkey2, hval2, hcnt2, hmem2,
      hget2⟩

theorem insert_absent_error_iff (t : Table V) (k : Nat) (v : V) (hwf : WF t)
    (habs : ¬ present t k) :
    (insert t k v = Except.error rehashMsg ↔
      ∀ j, j < BFS_MAX t.W →
        firstEmptyOffset t
          (nodePos t (t.numBuckets - t.W) (homePos0 t k) (homePos1 t k) j) = none) ∧
    ∀ msg, insert t k v = Except.error msg → msg = rehashMsg := by
  obtain ⟨n, hn⟩ := hwf.pow2N
  obtain ⟨w, hwt⟩ := hwf.pow2W
  have hwn : w ≤ n := pow2_le_exponents (by rw [← hn, ← hwt]; exact hwf.WleN)
  have hW : 0 < t.W := by rw [hwt]; exact Nat.pos_pow_of_pos _ (by norm_num)
  have hMpos : 0 < BFS_MAX t.W := by
    unfold BFS_MAX
    omega
  have hfk0 := findKeyHit_none_of_absent t hwf.ctrlLen hwf.slotsLen ⟨n, hn⟩ k
    (homePos0 t k) habs
  have hfk1 := findKeyHit_none_of_absent t hwf.ctrlLen hwf.slotsLen ⟨n, hn⟩ k
    (homePos1 t k) habs
  rw [insert_eq_match, hfk0, hfk1]
  rcases he0 : firstEmptyOffset t (homePos0 t k) with _ | e
  · rcases he1 : firstEmptyOffset t (homePos1 t k) with _ | e
    · rcases hbfs : bfsGo t (t.numBuckets - t.W) (BFS_MAX t.W + 2) 0
          [homePos0 t k, homePos1 t k] with msg | trip
      · have hmsg := bfsGo_error_msg t (t.numBuckets - t.W) _ _ _ _ hbfs
        subst hmsg
        refine ⟨iff_of_true rfl ?_, ?_⟩
        · exact (bfs_start_characterize t n w hn hwt hwn k he0 he1).1.mp hbfs
        · intro msg2 hmsg2
          replace hmsg2 : (Except.error rehashMsg :
              Except String (Table V × Bool × Nat)) = Except.error msg2 := hmsg2
          exact (Except.error.inj hmsg2).symm
      · rcases trip with ⟨path, bidx, q2⟩
        have hchar := (bfs_start_characterize t n w hn hwt hwn k he0 he1).2 path bidx q2 hbfs
        refine ⟨iff_of_false (fun hbad => Except.noConfusion hbad) ?_, ?_⟩
        · intro hall
          obtain ⟨e2, hsome, -⟩ := hchar.2.2.1
          have := hall path hchar.2.1
          rw [hsome] at this
          exact Option.noConfusion this
        · intro msg2 hmsg2
          exact absurd hmsg2 (fun hbad => Except.noConfusion hbad)
    · refine ⟨iff_of_false (fun hbad => Except.noConfusion hbad) ?_, ?_⟩
      · intro hall
        have h1 := hall 1 (by unfold BFS_MAX; omega)
        rw [nodePos_one] at h1
        rw [he1] at h1
        exact Option.noConfusion h1
      · intro msg2 hmsg2
        exact absurd hmsg2 (fun hbad => Except.noConfusion hbad)
  · refine ⟨iff_of_false (fun hbad => Except.noConfusion hbad) ?_, ?_⟩
    · intro hall
      have h0 := hall 0 hMpos
      rw [nodePos_zero] at h0
      rw [he0] at h0
      exact Option.noConfusion h0
    · intro msg2 hmsg2
      exact absurd hmsg2 (fun hbad => Except.noConfusion hbad)

end Aligned

/-- Claim C10: `get` on the aligned cuckoo table loads at most two groups
(any fuel `≥ 2` for its probe loop gives the same answer as fuel 2), it
returns `Some` exactly when one of the two candidate groups holds a slot
whose tag matches the key's fingerprint and whose stored 64-bit key equals
the key (in which case the result is that slot's value), and it returns
`None` otherwise — an EMPTY slot in the first group never cuts the probe
short, so the second group is always examined. -/
theorem c10_get_loads_at_most_two_groups {V : Type} (t : Aligned.Table V) (k : Nat) :
    (∀ fuel, 2 ≤ fuel →
        Aligned.getGo t k (Tag.full (foldHashFast k t.seed)) fuel false
          (foldHashFast k t.seed) = Aligned.get t k) ∧
      ((∃ ov, Aligned.get t k = some ov) ↔
        ∃ p bit, bit < t.W ∧
          (p = foldHashFast k t.seed &&& (t.numBuckets - t.W) ∨
            p = (foldHashFast k t.seed ^^^ scramble_tag (Tag.full (foldHashFast k t.seed)))
              &&& (t.numBuckets - t.W)) ∧
          Aligned.ctrlAt t (p + bit) = Tag.full (foldHashFast k t.seed) ∧
          Aligned.keyAt t ((p + bit) &&& (t.numBuckets - 1)) = k) ∧
      ∀ ov, Aligned.get t k = some ov →
        ∃ p bit, bit < t.W ∧
          (p = foldHashFast k t.seed &&& (t.numBuckets - t.W) ∨
            p = (foldHashFast k t.seed ^^^ scramble_tag (Tag.full (foldHashFast k t.seed)))
              &&& (t.numBuckets - t.W)) ∧
          Aligned.ctrlAt t (p + bit) = Tag.full (foldHashFast k t.seed) ∧
          Aligned.keyAt t ((p + bit) &&& (t.numBuckets - 1)) = k ∧
          (Aligned.slotAt t ((p + bit) &&& (t.numBuckets - 1))).2 = ov := by
  set h0 := foldHashFast k t.seed with hh0
  set tag := Tag.full h0 with htag
  set pos0 := h0 &&& (t.numBuckets - t.W) with hpos0
  set pos1 := (h0 ^^^ scramble_tag tag) &&& (t.numBuckets - t.W) with hpos1
  have hget : Aligned.get t k =
      match Aligned.findKeyHit t pos0 tag k with
      | some idx => some (Aligned.slotAt t idx).2
      | none =>
        match Aligned.findKeyHit t pos1 tag k with
        | some idx => some (Aligned.slotAt t idx).2
        | none => none := by
    show Aligned.getGo t k tag 2 false h0 = _
    rw [Aligned.getGo]
    rcases Aligned.findKeyHit t pos0 tag k with _ | idx
    · rw [Aligned.getGo]
      rcases Aligned.findKeyHit t pos1 tag k with _ | idx <;> rfl
    · rfl
  refine ⟨?_, ?_, ?_⟩
  · intro fuel hfuel
    obtain ⟨f, rfl⟩ : ∃ f, fuel = f + 2 := ⟨fuel - 2, by omega⟩
    exact Aligned.getGo_first ..
  · rw [hget]
    constructor
    · intro hsome
      rcases hfk0 : Aligned.findKeyHit t pos0 tag k with _ | idx
      · rcases hfk1 : Aligned.findKeyHit t pos1 tag k with _ | idx
        · rw [hfk0, hfk1] at hsome
          simp at hsome
        · rcases Aligned.findKeyHit_eq_some hfk1 with ⟨bit, hbit, ht, hi, hk⟩
          exact ⟨pos1, bit, hbit, Or.inr rfl, ht, by rw [← hi]; exact hk⟩
      · rcases Aligned.findKeyHit_eq_some hfk0 with ⟨bit, hbit, ht, hi, hk⟩
        exact ⟨pos0, bit, hbit, Or.inl rfl, ht, by rw [← hi]; exact hk⟩
    · rintro ⟨p, bit, hbit, hp | hp, ht, hk⟩
      · subst hp
        rcases hfk0 : Aligned.findKeyHit t pos0 tag k with _ | idx
        · exact absurd hk (Aligned.findKeyHit_eq_none_iff.mp hfk0 bit hbit ht)
        · exact ⟨_, rfl⟩
      · subst hp
        rcases hfk0 : Aligned.findKeyHit t pos0 tag k with _ | idx
        · rcases hfk1 : Aligned.findKeyHit t pos1 tag k with _ | idx
          · exact absurd hk (Aligned.findKeyHit_eq_none_iff.mp hfk1 bit hbit ht)
          · exact ⟨_, rfl⟩
        · exact ⟨_, rfl⟩
  · intro ov hov
    rw [hget] at hov
    rcases hfk0 : Aligned.findKeyHit t pos0 tag k with _ | idx
    · rcases hfk1 : Aligned.findKeyHit t pos1 tag k with _ | idx
      · rw [hfk0, hfk1] at hov
        simp at hov
      · rw [hfk0, hfk1] at hov
        rcases Aligned.findKeyHit_eq_some hfk1 with ⟨bit, hbit, ht, hi, hk⟩
        refine ⟨pos1, bit, hbit, Or.inr rfl, ht, by rw [← hi]; exact hk, ?_⟩
        rw [← hi]
        exact Option.some.inj hov
    · rw [hfk0] at hov
      rcases Aligned.findKeyHit_eq_some hfk0 with ⟨bit, hbit, ht, hi, hk⟩
      refine ⟨pos0, bit, hbit, Or.inl rfl, ht, by rw [← hi]; exact hk, ?_⟩
      rw [← hi]
      exact Option.some.inj hov

/-- Claim C8: for every 64-bit hash and every aligned bucket mask
`2 ^ n - 2 ^ w`, the two candidate positions of the aligned cuckoo table
satisfy `pos1 = pos0 ^ (scramble_tag(fingerprint) & mask)` and vice versa:
the pair is an involution recoverable from either endpoint plus the tag. -/
theorem c8_positions_xor_involution (h n w : Nat) :
    ((h ^^^ scramble_tag (Tag.full h)) &&& (2 ^ n - 2 ^ w) =
        (h &&& (2 ^ n - 2 ^ w)) ^^^ (scramble_tag (Tag.full h) &&& (2 ^ n - 2 ^ w))) ∧
      (h &&& (2 ^ n - 2 ^ w) =
        ((h ^^^ scramble_tag (Tag.full h)) &&& (2 ^ n - 2 ^ w)) ^^^
          (scramble_tag (Tag.full h) &&& (2 ^ n - 2 ^ w))) := by
  refine ⟨Nat.and_xor_distrib_right .., ?_⟩
  rw [Nat.and_xor_distrib_right, Nat.xor_assoc, Nat.xor_self, Nat.xor_zero]

/-- Fixture fact: the empty aligned cuckoo table built by `with_capacity(28)`
with `W = 8` (`num_buckets = 32`) and seed 0 is well formed. -/
theorem wf_empty28 : Aligned.WF (Aligned.withCapacity Nat 8 28 0) := by
  refine ⟨⟨5, by decide⟩, ⟨3, by decide⟩, by decide, by decide, by decide, by decide, ?_⟩
  intro k2
  rw [Aligned.keyCount_withCapacity]
  omega

/-- Claim C2: on a well-formed aligned cuckoo table, `insert(k, v)` returns
`inserted_flag = false`, leaves `len()` unchanged and overwrites the stored
value with `v` when `k` is already present (`get(k)` then yields `v`, every
other key's binding is untouched, and `k` stays bound exactly once); when
`k` is absent, any returning `insert(k, v)` yields `inserted_flag = true`,
increments `len()` by one and installs the binding `(k, v)`. -/
theorem c2_insert_overwrites_or_installs {V : Type} (t : Aligned.Table V) (k : Nat) (v : V)
    (hwf : Aligned.WF t) :
    (Aligned.present t k →
      ∃ t2 idx, Aligned.insert t k v = Except.ok (t2, false, idx) ∧
        t2.items = t.items ∧
        Aligned.get t2 k = some (some v) ∧
        Aligned.keyCount t2 k = 1 ∧
        ∀ k2 v2, k2 ≠ k → (Aligned.livePairMem t2 k2 v2 ↔ Aligned.livePairMem t k2 v2)) ∧
    (¬ Aligned.present t k →
      ∀ t2 flag idx, Aligned.insert t k v = Except.ok (t2, flag, idx) →
        flag = true ∧
        t2.items = t.items + 1 ∧
        Aligned.get t2 k = some (some v) ∧
        Aligned.keyCount t2 k = 1 ∧
        ∀ k2 v2, k2 ≠ k → (Aligned.livePairMem t2 k2 v2 ↔ Aligned.livePairMem t k2 v2)) := by
  constructor
  · intro hpres
    obtain ⟨t2, idx, hins, hitems, hcnt, hmem, hget⟩ :=
      Aligned.insert_present_spec t k v hwf hpres
    refine ⟨t2, idx, hins, hitems, hget, ?_, hmem⟩
    have h1 := hcnt k
    have h2 := hwf.unique k
    unfold Aligned.present at hpres
    omega
  · intro habs t2 flag idx hins
    obtain ⟨hflag, hitems, hN2, hclen, hslen, hidxN, hctrl, hkey, hval, hcnt, hmem, hget⟩ :=
      Aligned.insert_absent_spec t k v hwf habs t2 flag idx hins
    refine ⟨hflag, hitems, hget, ?_, hmem⟩
    have h1 := hcnt k
    rw [if_pos rfl] at h1
    have hkc0 : Aligned.keyCount t k = 0 := by
      unfold Aligned.present at habs
      omega
    omega

/-- Witness for C2: the hypotheses are satisfiable — on the well-formed empty
table `with_capacity(28)` (key 1 absent), the absent branch of the claim
applies to the concrete call `insert(1, 42)`. -/
theorem c2_witness :
    Aligned.WF (Aligned.withCapacity Nat 8 28 0) ∧
    (¬ Aligned.present (Aligned.withCapacity Nat 8 28 0) 1) ∧
    ∀ t2 flag idx,
      Aligned.insert (Aligned.withCapacity Nat 8 28 0) 1 (42 : Nat) =
          Except.ok (t2, flag, idx) →
      flag = true ∧
      t2.items = (Aligned.withCapacity Nat 8 28 0).items + 1 ∧
      Aligned.get t2 1 = some (some 42) ∧
      Aligned.keyCount t2 1 = 1 ∧
      ∀ k2 v2, k2 ≠ 1 → (Aligned.livePairMem t2 k2 v2 ↔
        Aligned.livePairMem (Aligned.withCapacity Nat 8 28 0) k2 v2) :=
  ⟨wf_empty28, by unfold Aligned.present; decide,
    (c2_insert_overwrites_or_installs (Aligned.withCapacity Nat 8 28 0) 1 42 wf_empty28).2
      (by unfold Aligned.present; decide)⟩

/-- Claim C9: for a well-formed aligned cuckoo table and an absent key,
`insert` panics exactly when none of the `BFS_MAX = 2*(1+W+W^2+W^3)` BFS tree
nodes has an EMPTY slot in its group (the search would write children at or
past the queue capacity without having found an empty slot), and the only
possible diagnostic is the "need to rehash" message; every insert that
returns has found an empty slot within the bound: no panic occurs, the
inserted flag is set and the key is installed (it is live and `get` returns
the new value). -/
theorem c9_bfs_queue_exhaustion_rehash {V : Type} (t : Aligned.Table V) (k : Nat) (v : V)
    (hwf : Aligned.WF t) (habs : ¬ Aligned.present t k) :
    (Aligned.insert t k v = Except.error Aligned.rehashMsg ↔
      ∀ j, j < Aligned.BFS_MAX t.W →
        Aligned.firstEmptyOffset t
          (Aligned.nodePos t (t.numBuckets - t.W) (Aligned.homePos0 t k)
            (Aligned.homePos1 t k) j) = none) ∧
    (∀ msg, Aligned.insert t k v = Except.error msg → msg = Aligned.rehashMsg) ∧
    (∀ t2 flag idx, Aligned.insert t k v = Except.ok (t2, flag, idx) →
      flag = true ∧ Aligned.present t2 k ∧ Aligned.get t2 k = some (some v)) := by
  obtain ⟨herr, hmsg⟩ := Aligned.insert_absent_error_iff t k v hwf habs
  refine ⟨herr, hmsg, ?_⟩
  intro t2 flag idx hins
  obtain ⟨hflag, hitems, hN2, hclen, hslen, hidxN, hctrl, hkey, hval, hcnt, hmem, hget⟩ :=
    Aligned.insert_absent_spec t k v hwf habs t2 flag idx hins
  refine ⟨hflag, ?_, hget⟩
  unfold Aligned.present
  have h1 := hcnt k
  rw [if_pos rfl] at h1
  omega

/-- Witness for C9: the hypotheses are satisfiable — applying the claim to
the well-formed empty table `with_capacity(28)` with absent key 1 shows that
this insert cannot panic, because node 0 of the BFS tree (the first home
group) has an EMPTY slot. -/
theorem c9_witness :
    Aligned.insert (Aligned.withCapacity Nat 8 28 0) 1 (42 : Nat) ≠
      Except.error Aligned.rehashMsg := by
  intro herr
  have h := (c9_bfs_queue_exhaustion_rehash (Aligned.withCapacity Nat 8 28 0) 1 42
    wf_empty28 (by unfold Aligned.present; decide)).1.mp herr 0 (by decide)
  rw [Aligned.nodePos_zero] at h
  exact absurd h (by decide)

/-- Claim C3 counterexample: on the empty aligned cuckoo table (no
tombstones, key 1 not live, `len() = 0`), `insert_and_erase(1, 42)` returns
a table with `len() = 1`: the erase half resets the claimed control byte to
EMPTY but never decrements `items`, so `len()` is not unchanged across the
pair as the claim requires. -/
theorem c3_counterexample_items_increase :
    Aligned.noTombstones (Aligned.withCapacity Nat 8 28 0) ∧
    (¬ Aligned.present (Aligned.withCapacity Nat 8 28 0) 1) ∧
    (Aligned.withCapacity Nat 8 28 0).items = 0 ∧
    (Aligned.insertAndErase (Aligned.withCapacity Nat 8 28 0) 1 (42 : Nat)).map
      (fun t3 => t3.items) = Except.ok 1 :=
  ⟨by unfold Aligned.noTombstones; decide, by unfold Aligned.present; decide, rfl, rfl⟩

/-- Claim C3 (amended): on a well-formed aligned cuckoo table with no
tombstones and a key that is not yet live, a returning
`insert_and_erase(k, v)` leaves the key dead (`get(k)` returns None), but
`len()` is not unchanged: it grows by exactly one, because the insert half
increments `items` and the erase half (`set_ctrl(index, EMPTY)`) never
decrements it. -/
theorem c3_insert_and_erase_amended {V : Type} (t : Aligned.Table V) (k : Nat) (v : V)
    (hwf : Aligned.WF t) (hnt : Aligned.noTombstones t) (habs : ¬ Aligned.present t k) :
    ∀ t3, Aligned.insertAndErase t k v = Except.ok t3 →
      Aligned.get t3 k = none ∧ t3.items = t.items + 1 := by
  obtain ⟨n, hn⟩ := hwf.pow2N
  unfold Aligned.insertAndErase
  rcases hins : Aligned.insert t k v with msg | trip
  · intro t3 h3
    exact absurd h3 (fun hbad => Except.noConfusion hbad)
  · rcases trip with ⟨t2, flag, idx⟩
    obtain ⟨hflag, hitems, hN2, hclen, hslen, hidxN, hctrl, hkey, hval, hcnt, hmem, hget⟩ :=
      Aligned.insert_absent_spec t k v hwf habs t2 flag idx hins
    subst hflag
    intro t3 h3
    replace h3 : Except.ok ({ t2 with ctrl := t2.ctrl.set idx Tag.EMPTY } :
        Aligned.Table V) = Except.ok t3 := h3
    obtain rfl : ({ t2 with ctrl := t2.ctrl.set idx Tag.EMPTY } : Aligned.Table V) = t3 :=
      Except.ok.inj h3
    have hiN2 : idx < t2.numBuckets := by
      rw [hN2]
      exact hidxN
    have h1c : t2.ctrl.length = t2.numBuckets := hclen.trans hN2.symm
    have h2c : t2.slots.length = t2.numBuckets := hslen.trans hN2.symm
    have hcells3 : Aligned.cells ({ t2 with ctrl := t2.ctrl.set idx Tag.EMPTY } :
        Aligned.Table V) =
        (Aligned.cells t2).set idx (Tag.EMPTY, t2.slots.getD idx (0, none)) := by
      show (t2.ctrl.set idx Tag.EMPTY).zip t2.slots = _
      exact zip_set_left t2.ctrl t2.slots idx Tag.EMPTY (0, none) (by omega)
    have hicells : idx < (Aligned.cells t2).length := by
      rw [Aligned.cells_length t2 h1c h2c]
      exact hiN2
    have hold : (Aligned.cells t2)[idx] =
        (Aligned.ctrlAt t2 idx, Aligned.slotAt t2 idx) := by
      have h := Aligned.cells_getElem t2 idx h1c h2c hiN2
      rw [List.getD_eq_getElem _ _ hicells] at h
      exact h
    have hmset3 := multiset_set_add (Aligned.cells t2) idx
      (Tag.EMPTY, t2.slots.getD idx (0, none)) hicells
    have hkc3 : Aligned.keyCount ({ t2 with ctrl := t2.ctrl.set idx Tag.EMPTY } :
        Aligned.Table V) k = 0 := by
      have hcq := countP_eq_of_multiset_add (Aligned.liveCell k)
        ((Aligned.cells t2).set idx (Tag.EMPTY, t2.slots.getD idx (0, none)))
        (Aligned.cells t2) ((Aligned.cells t2)[idx])
        (Tag.EMPTY, t2.slots.getD idx (0, none)) hmset3
      have hlv1 : Aligned.liveCell k (Aligned.cells t2)[idx] = true := by
        rw [hold]
        show (Tag.isFull (Aligned.ctrlAt t2 idx) && (Aligned.keyAt t2 idx == k)) = true
        rw [hctrl, Aligned.isFull_tag_full, hkey, Bool.true_and, beq_self_eq_true]
      have hlv2 : Aligned.liveCell k (Tag.EMPTY, t2.slots.getD idx (0, none)) = false := by
        show (Tag.isFull Tag.EMPTY && ((t2.slots.getD idx (0, none)).1 == k)) = false
        rfl
      rw [hlv1, hlv2] at hcq
      have hif0 : (if (false : Bool) = true then 1 else 0) = 0 := rfl
      have hif1 : (if (true : Bool) = true then 1 else 0) = 1 := rfl
      rw [hif0, hif1] at hcq
      have hcnk := hcnt k
      rw [if_pos rfl] at hcnk
      have hkc0 : Aligned.keyCount t k = 0 := by
        unfold Aligned.present at habs
        omega
      unfold Aligned.keyCount
      rw [hcells3]
      unfold Aligned.keyCount at hcnk hkc0
      omega
    have habs3 : ¬ Aligned.present ({ t2 with ctrl := t2.ctrl.set idx Tag.EMPTY } :
        Aligned.Table V) k := by
      unfold Aligned.present
      omega
    refine ⟨?_, hitems⟩
    exact Aligned.get_none_of_absent _ n
      (by show t2.numBuckets = 2 ^ n; rw [hN2, hn])
      (by show (t2.ctrl.set idx Tag.EMPTY).length = t2.numBuckets
          rw [List.length_set, h1c])
      (by show t2.slots.length = t2.numBuckets; exact h2c) k habs3

/-- Witness for C3's amended theorem: the hypotheses are satisfiable — on
the well-formed, tombstone-free empty table `with_capacity(28)` with absent
key 1, the amended conclusion holds for the concrete call
`insert_and_erase(1, 42)`. -/
theorem c3_witness :
    Aligned.WF (Aligned.withCapacity Nat 8 28 0) ∧
    Aligned.noTombstones (Aligned.withCapacity Nat 8 28 0) ∧
    (¬ Aligned.present (Aligned.withCapacity Nat 8 28 0) 1) ∧
    ∀ t3, Aligned.insertAndErase (Aligned.withCapacity Nat 8 28 0) 1 (42 : Nat) =
        Except.ok t3 →
      Aligned.get t3 1 = none ∧ t3.items = (Aligned.withCapacity Nat 8 28 0).items + 1 :=
  ⟨wf_empty28, by unfold Aligned.noTombstones; decide, by unfold Aligned.present; decide,
    c3_insert_and_erase_amended (Aligned.withCapacity Nat 8 28 0) 1 42 wf_empty28
      (by unfold Aligned.noTombstones; decide) (by unfold Aligned.present; decide)⟩

end CuckooBench
